import Mathlib

/-!
# Verification of the `lsi` path traversal and metadata engine

This file gives a shallow embedding, in Lean 4, of the core of the `lsi`
repository (Unix build): the symbolic mode-string formatter `mode`, the path
splitter `splitPath` (including the lexical cleaning performed by
`filepath.Clean` and the joining performed by `filepath.Join` from Go's
standard library, which the source calls), and the traversal walker
`walkRecursive`/`makeEntry`, modelled over an abstract filesystem with an
explicit event trace and a cooperative cancellation signal.

Paths are modelled as lists of characters (`Path := List Char`), machine
integers as `Nat`/`Int` (the `uint64` parent-device sentinel `^uint64(0)` is
the explicit constant `2^64 - 1`), and fallible operations return `Except`.
-/

namespace Lsi

/-- `upperIf` from lsi.go: the rune uppercased if `upper`, else lowercased. -/
def upperIf (c : Char) (upper : Bool) : Char :=
  if upper then c.toUpper else c.toLower

/-- The permission-bit loop of `mode` (lsi.go): for Go loop index `i` running
from 9 down to 1, if bit `i-1` of the mode word is clear, position `10-i` of
the 10-character string is replaced by a dash.  `dashLoop m i s` performs the
iterations for Go indices `i, i-1, …, 1`. -/
def dashLoop (m : Nat) : Nat → List Char → List Char
  | 0, s => s
  | i + 1, s => dashLoop m i (if m.testBit i = false then s.set (9 - i) '-' else s)

/-- The file-type attribute table of `mode`: `const attr = "d---lbps--c-?"`. -/
def attrTable : List Char := ['d', '-', '-', '-', 'l', 'b', 'p', 's', '-', '-', 'c', '-', '?']

/-- The file-type loop of `mode`: for each index `i` and character `c` of
`attrTable`, if `c` is not a dash and bit `32-1-i` of the mode word is set,
position 0 of the string is replaced by `c` (later matches overwrite). -/
def typeLoopAux (m : Nat) : List Char → Nat → List Char → List Char
  | [], _, s => s
  | c :: cs, i, s =>
      typeLoopAux m cs (i + 1) (if c ≠ '-' ∧ m.testBit (32 - 1 - i) then s.set 0 c else s)

/-- `mode` from lsi.go: the symbolic (GNU-`ls`-flavoured) mode string for a
Go `fs.FileMode` word `m` (a `uint32`; only bits 0–31 are consulted).
Returned as a list of characters. -/
def mode (m : Nat) : List Char :=
  let s := ['-', 'r', 'w', 'x', 'r', 'w', 'x', 'r', 'w', 'x']
  let s := dashLoop m 9 s
  let s := typeLoopAux m attrTable 0 s
  -- fs.ModeSetuid = 1<<23, fs.ModeSetgid = 1<<22, fs.ModeSticky = 1<<20
  let s := if m.testBit 23 then s.set 3 (upperIf 's' (m.testBit 8 = false)) else s
  let s := if m.testBit 22 then s.set 6 (upperIf 's' (m.testBit 5 = false)) else s
  let s := if m.testBit 20 then s.set 9 (upperIf 't' (m.testBit 2 = false)) else s
  -- fs.ModeAppend = 1<<30, fs.ModeExclusive = 1<<29, fs.ModeTemporary = 1<<28
  if m.testBit 30 ∨ m.testBit 29 ∨ m.testBit 28 then s ++ ['+'] else s

example : mode 0o644 = "-rw-r--r--".toList := by decide
example : mode (2 ^ 31 + 0o755) = "drwxr-xr-x".toList := by decide
example : mode (2 ^ 26 + 2 ^ 21 + 0o660) = "crw-rw----".toList := by decide
example : mode (2 ^ 30 + 0o644) = "-rw-r--r--+".toList := by decide

/-! ## Path splitting (Unix build)

`splitPath` (lsi.go) first calls `filepath.Clean`.  On Unix the volume length
is always zero, `os.IsPathSeparator` tests for `'/'` and `FromSlash` is the
identity, so `filepath.Clean` reduces to the loop embedded below.  The
`lazybuf` output buffer is modelled by the list `buf` of written characters
(whose length is Go's `out.w`), and the read index `r` by the list of
not-yet-processed characters. -/

/-- `os.IsPathSeparator` on Unix. -/
def isSep (c : Char) : Bool := c == '/'

/-- The backtracking scan of `filepath.Clean`'s `..` case: starting from
index `w` (= `out.w` after the initial decrement), decrement while the index
exceeds `dotdot` and the buffer character there is not a separator. -/
def backtrackW (buf : List Char) (dotdot : Nat) : Nat → Nat
  | 0 => 0
  | w + 1 =>
      if dotdot < w + 1 ∧ isSep (buf.getD (w + 1) ' ') = false then backtrackW buf dotdot w
      else w + 1

/-- The main loop of `filepath.Clean` (Unix), over the unprocessed suffix of
the input.  In the final (real path element) branch the guard of the first
`if` guarantees the current character is not a separator, so the element is
the current character followed by the longest separator-free run of the
remaining input, exactly as Go's inner copy loop produces. -/
def cleanLoop (rooted : Bool) : List Char → List Char → Nat → List Char
  | [], buf, _ => buf
  | c :: rest, buf, dotdot =>
    if isSep c then
      -- empty path element
      cleanLoop rooted rest buf dotdot
    else if c = '.' ∧ (rest = [] ∨ isSep (rest.headD ' ')) then
      -- "." element
      cleanLoop rooted rest buf dotdot
    else if c = '.' ∧ rest.headD ' ' = '.' ∧ (rest.tail = [] ∨ isSep (rest.tail.headD ' ')) then
      -- ".." element: remove to last separator
      if dotdot < buf.length then
        cleanLoop rooted rest.tail (buf.take (backtrackW buf dotdot (buf.length - 1))) dotdot
      else if rooted = false then
        cleanLoop rooted rest.tail ((if 0 < buf.length then buf ++ ['/'] else buf) ++ ['.', '.'])
          ((if 0 < buf.length then buf ++ ['/'] else buf) ++ ['.', '.']).length
      else
        cleanLoop rooted rest.tail buf dotdot
    else
      -- real path element: the current character and the separator-free run
      -- after it, appended to the buffer behind a separator when needed
      cleanLoop rooted (rest.dropWhile (fun x => !(isSep x)))
        ((if (rooted = true ∧ buf.length ≠ 1) ∨ (rooted = false ∧ buf.length ≠ 0)
          then buf ++ ['/'] else buf) ++ (c :: rest.takeWhile (fun x => !(isSep x)))) dotdot
termination_by rest _ _ => rest.length
decreasing_by
  all_goals simp only [List.length_cons, List.length_tail]
  all_goals
    first
      | omega
      | exact Nat.lt_succ_of_le (List.dropWhile_sublist _).length_le

/-- The final step of `filepath.Clean`: turn an empty buffer into `"."`. -/
def dotIfEmpty (buf : List Char) : List Char := if buf = [] then ['.'] else buf

/-- `filepath.Clean` on Unix: empty input becomes `"."`; otherwise run the
main loop — starting past the root separator with `"/"` pre-written and
`dotdot = 1` when the path is rooted — and turn an empty result into `"."`. -/
def clean (p : List Char) : List Char :=
  if p = [] then ['.']
  else if isSep (p.headD ' ') then dotIfEmpty (cleanLoop true p.tail ['/'] 1)
  else dotIfEmpty (cleanLoop false p [] 0)

/-- `strings.Split` with the single-character separator `"/"`: the subslices
of the input between separators (`n+1` pieces for `n` separators). -/
def splitSep : List Char → List (List Char)
  | [] => [[]]
  | c :: r =>
    if isSep c then [] :: splitSep r
    else
      match splitSep r with
      | [] => [[c]]
      | s :: ss => (c :: s) :: ss

/-- `strings.Join` with separator `"/"`. -/
def joinSegs : List (List Char) → List Char
  | [] => []
  | [s] => s
  | s :: s2 :: rest => s ++ '/' :: joinSegs (s2 :: rest)

/-- `filepath.Join`: skip leading empty arguments, then `Clean` the
`"/"`-joined remainder (empty if every argument is empty). -/
def goJoinList (elems : List (List Char)) : List Char :=
  match elems.dropWhile (fun e => e.isEmpty) with
  | [] => []
  | l => clean (joinSegs l)

/-- `filepath.Join(a, b)`, as used for `dest` and `rel` in lsi.go. -/
def goJoin (a b : List Char) : List Char := goJoinList [a, b]

/-- `filepath.IsAbs` on Unix: the path starts with `"/"`. -/
def isAbs (p : List Char) : Bool := isSep (p.headD ' ')

/-- `splitPath` from lsi.go (Unix: `filepath.VolumeName` is always empty, so
the returned volume is empty and for an absolute path the root element is
`"/"` with the remainder split on the separator). -/
def splitPath (path : List Char) : List (List Char) × List Char :=
  let path := clean path
  if isAbs path then
    (if 1 < path.length then [['/']] ++ splitSep (path.drop 1) else [['/']], [])
  else
    (if 0 < path.length then splitSep path else [], [])

/-- `filepath.Dir` on Unix: everything up to and including the final
separator, cleaned (`"."` when there is no separator). -/
def dirPath (p : List Char) : List Char :=
  clean (p.take (p.length - (p.reverse.takeWhile (fun c => !(isSep c))).length))

/-! ## A segment-level characterisation of `clean`

To reason about `clean` we relate its character-level loop to a
segment-level description: tokenize the input into its maximal
separator-free runs (dropping `"."` runs), process `".."` runs against an
accumulator, and render the surviving segments with single separators.
`cleanLoop`'s buffer is always the rendering of the accumulator, and its
`dotdot` marker is the rendered length of the accumulator's leading run of
`".."` segments. -/

/-- The `".."` segment. -/
def dd2 : List Char := ['.', '.']

/-- Tokenize a path into its maximal separator-free runs, dropping `"."`. -/
def segsOf : List Char → List (List Char)
  | [] => []
  | c :: r =>
    if isSep c then segsOf r
    else if c :: r.takeWhile (fun x => !(isSep x)) = ['.'] then
      segsOf (r.dropWhile (fun x => !(isSep x)))
    else (c :: r.takeWhile (fun x => !(isSep x))) :: segsOf (r.dropWhile (fun x => !(isSep x)))
termination_by l => l.length
decreasing_by
  all_goals simp only [List.length_cons]
  all_goals
    first
      | omega
      | exact Nat.lt_succ_of_le (List.dropWhile_sublist _).length_le

/-- Process one segment against the accumulator: a `".."` pops the last
segment when one is poppable, is absorbed by the root when rooted, and is
otherwise kept; any other segment is appended. -/
def pushSeg (rooted : Bool) (acc : List (List Char)) (s : List Char) : List (List Char) :=
  if s = dd2 then
    if acc ≠ [] ∧ acc.getLast? ≠ some dd2 then acc.dropLast
    else if rooted then acc else acc ++ [s]
  else acc ++ [s]

/-- Process a list of segments left to right. -/
def processSegs (rooted : Bool) (acc : List (List Char)) (segs : List (List Char)) :
    List (List Char) :=
  segs.foldl (pushSeg rooted) acc

/-- Render an accumulator the way `cleanLoop` keeps its buffer. -/
def renderP (rooted : Bool) (acc : List (List Char)) : List Char :=
  if rooted then '/' :: joinSegs acc else joinSegs acc

/-- The `dotdot` marker corresponding to an accumulator: 1 when rooted,
otherwise the rendered length of the leading run of `".."` segments. -/
def ddOf (rooted : Bool) (acc : List (List Char)) : Nat :=
  if rooted then 1 else (joinSegs (acc.takeWhile (fun s => s == dd2))).length

/-- A well-formed segment: nonempty, separator-free, and not `"."`. -/
def GoodSeg (s : List Char) : Prop :=
  s ≠ [] ∧ (∀ c ∈ s, isSep c = false) ∧ s ≠ ['.']

/-- The loop invariant on accumulators: a (possibly empty) leading run of
`".."` segments — absent when rooted — followed by well-formed non-`".."`
segments. -/
def GoodAcc (rooted : Bool) (acc : List (List Char)) : Prop :=
  ∃ k others, acc = List.replicate k dd2 ++ others ∧
    (∀ s ∈ others, GoodSeg s ∧ s ≠ dd2) ∧ (rooted = true → k = 0)

/-- The segment-level description of `filepath.Clean`. -/
def cleanSpec (p : List Char) : List Char :=
  if p = [] then ['.']
  else
    let rooted := isAbs p
    let out := processSegs rooted [] (segsOf p)
    if rooted then '/' :: joinSegs out
    else if out = [] then ['.'] else joinSegs out

theorem goodAcc_nil (rooted : Bool) : GoodAcc rooted [] :=
  ⟨0, [], by simp, by simp, fun _ => rfl⟩

theorem goodSeg_dd2 : dd2 ≠ [] ∧ (∀ c ∈ dd2, isSep c = false) ∧ dd2 ≠ ['.'] := by
  refine ⟨by simp [dd2], ?_, by simp [dd2]⟩
  intro c hc
  simp [dd2] at hc
  simp [hc, isSep]

theorem joinSegs_append_single (acc : List (List Char)) (s : List Char) :
    joinSegs (acc ++ [s]) = if acc = [] then s else joinSegs acc ++ '/' :: s := by
  induction acc with
  | nil => simp [joinSegs]
  | cons a t ih =>
    cases t with
    | nil => simp [joinSegs]
    | cons b t' =>
      simp only [List.cons_append] at ih ⊢
      simp only [joinSegs, ih]
      simp

theorem joinSegs_eq_nil_iff (acc : List (List Char)) (h : ∀ s ∈ acc, s ≠ []) :
    joinSegs acc = [] ↔ acc = [] := by
  cases acc with
  | nil => simp [joinSegs]
  | cons a t =>
    cases t with
    | nil =>
      simp only [joinSegs]
      have := h a (by simp)
      simp [this]
    | cons b t' => simp [joinSegs]

theorem joinSegs_length_le_append (xs ys : List (List Char)) :
    (joinSegs xs).length ≤ (joinSegs (xs ++ ys)).length := by
  induction ys using List.reverseRecOn with
  | nil => simp
  | append_singleton ys s ih =>
    rw [show xs ++ (ys ++ [s]) = (xs ++ ys) ++ [s] by simp, joinSegs_append_single]
    by_cases h : xs ++ ys = []
    · have hx : xs = [] := (List.append_eq_nil.mp h).1
      simp [h, hx, joinSegs]
    · rw [if_neg h]
      refine le_trans ih ?_
      simp only [List.length_append, List.length_cons]
      omega

theorem joinSegs_length_lt_append_single (xs : List (List Char)) (s : List Char) (hs : s ≠ []) :
    (joinSegs xs).length < (joinSegs (xs ++ [s])).length := by
  rw [joinSegs_append_single]
  by_cases h : xs = []
  · subst h
    simpa [joinSegs] using List.length_pos.mpr hs
  · rw [if_neg h]
    simp only [List.length_append, List.length_cons]
    omega

theorem renderP_append (rooted : Bool) (acc : List (List Char)) (s : List Char) :
    renderP rooted (acc ++ [s]) =
      renderP rooted acc ++ ((if acc = [] then [] else ['/']) ++ s) := by
  by_cases h : acc = [] <;>
    cases rooted <;>
      simp [renderP, joinSegs_append_single, h, joinSegs]

theorem goodAcc_mem (rooted : Bool) (acc : List (List Char)) (h : GoodAcc rooted acc) :
    ∀ s ∈ acc, s ≠ [] ∧ ∀ c ∈ s, isSep c = false := by
  obtain ⟨k, others, rfl, hg, -⟩ := h
  intro s hs
  rcases List.mem_append.mp hs with hm | hm
  · have : s = dd2 := List.eq_of_mem_replicate hm
    subst this
    exact ⟨goodSeg_dd2.1, goodSeg_dd2.2.1⟩
  · exact ⟨(hg s hm).1.1, (hg s hm).1.2.1⟩

theorem takeWhile_dots (k : Nat) (others : List (List Char)) (h : ∀ s ∈ others, s ≠ dd2) :
    (List.replicate k dd2 ++ others).takeWhile (fun s => s == dd2) = List.replicate k dd2 := by
  induction k with
  | zero =>
    cases others with
    | nil => simp
    | cons o os =>
      have : (o == dd2) = false := by
        simpa using h o (by simp)
      simp [List.takeWhile_cons, this]
  | succ k ih =>
    simp only [List.replicate_succ, List.cons_append, List.takeWhile_cons]
    simp [ih]

theorem ddOf_append (rooted : Bool) (acc : List (List Char)) (s : List Char)
    (hacc : GoodAcc rooted acc) (hs : s ≠ dd2) :
    ddOf rooted (acc ++ [s]) = ddOf rooted acc := by
  cases rooted with
  | true => rfl
  | false =>
    obtain ⟨k, others, rfl, hg, -⟩ := hacc
    simp only [ddOf, if_neg (Bool.false_ne_true)]
    rw [List.append_assoc, takeWhile_dots k (others ++ [s]), takeWhile_dots k others]
    · intro t ht; exact (hg t ht).2
    · intro t ht
      rcases List.mem_append.mp ht with hm | hm
      · exact (hg t hm).2
      · simp at hm; subst hm; exact hs

theorem ddOf_le (rooted : Bool) (acc : List (List Char)) (hacc : GoodAcc rooted acc) :
    ddOf rooted acc ≤ (renderP rooted acc).length := by
  obtain ⟨k, others, rfl, hg, hk⟩ := hacc
  cases rooted with
  | true => simp [ddOf, renderP]
  | false =>
    simp only [ddOf, if_neg (Bool.false_ne_true), renderP]
    rw [takeWhile_dots k others (fun t ht => (hg t ht).2)]
    exact joinSegs_length_le_append _ _

theorem goodAcc_last_ne_dd2 (others : List (List Char))
    (hg : ∀ s ∈ others, GoodSeg s ∧ s ≠ dd2) (_h : others ≠ []) :
    others.getLast? ≠ some dd2 := by
  intro hc
  exact (hg dd2 (List.mem_of_mem_getLast? hc)).2 rfl

/-- The "can backtrack" test `out.w > dotdot` holds exactly when the
accumulator ends in a poppable (non-`".."`) segment. -/
theorem ddOf_lt_iff (rooted : Bool) (acc : List (List Char)) (hacc : GoodAcc rooted acc) :
    (ddOf rooted acc < (renderP rooted acc).length) ↔
      (acc ≠ [] ∧ acc.getLast? ≠ some dd2) := by
  obtain ⟨k, others, rfl, hg, hk⟩ := hacc
  have hne : ∀ s ∈ others, s ≠ [] := fun s hs => (hg s hs).1.1
  constructor
  · intro hlt
    by_cases ho : others = []
    · subst ho
      exfalso
      cases rooted with
      | true =>
        rw [hk rfl] at hlt
        simp [ddOf, renderP, joinSegs] at hlt
      | false =>
        simp only [ddOf, if_neg (Bool.false_ne_true), renderP, List.append_nil] at hlt
        rw [List.takeWhile_replicate] at hlt
        simp at hlt
    · constructor
      · exact List.append_ne_nil_of_right_ne_nil _ ho
      · rw [List.getLast?_append]
        rw [List.getLast?_eq_getLast others ho]
        simp only [Option.or_some]
        intro hc
        have := List.getLast_mem ho
        rw [Option.some.injEq] at hc
        exact (hg _ this).2 hc
  · rintro ⟨hne2, hlast⟩
    have ho : others ≠ [] := by
      intro hc
      subst hc
      cases k with
      | zero => simp at hne2
      | succ k2 =>
        apply hlast
        simp only [List.append_nil, List.getLast?_append, List.replicate_succ']
        simp [List.getLast?_concat]
    obtain ⟨o, os, rfl⟩ := List.exists_cons_of_ne_nil ho
    have hlt : (joinSegs (List.replicate k dd2)).length <
        (joinSegs (List.replicate k dd2 ++ o :: os)).length := by
      calc (joinSegs (List.replicate k dd2)).length
          < (joinSegs (List.replicate k dd2 ++ [o])).length :=
            joinSegs_length_lt_append_single _ o (hne o (by simp))
        _ ≤ (joinSegs ((List.replicate k dd2 ++ [o]) ++ os)).length :=
            joinSegs_length_le_append _ _
        _ = (joinSegs (List.replicate k dd2 ++ o :: os)).length := by
            simp
    cases rooted with
    | true =>
      rw [hk rfl] at hlt ⊢
      simp only [ddOf, renderP, if_pos rfl, List.length_cons]
      simpa using hlt
    | false =>
      simp only [ddOf, if_neg (Bool.false_ne_true), renderP]
      rw [takeWhile_dots k (o :: os) (fun t ht => (hg t ht).2)]
      exact hlt

theorem backtrackW_stop (buf : List Char) (dd : Nat) (m : Nat)
    (hstop : ¬(dd < m ∧ isSep (buf.getD m ' ') = false)) :
    ∀ w, m ≤ w →
      (∀ j, m < j → j ≤ w → dd < j ∧ isSep (buf.getD j ' ') = false) →
      backtrackW buf dd w = m := by
  intro w
  induction w with
  | zero =>
    intro h1 _
    interval_cases m
    rfl
  | succ w ih =>
    intro h1 h2
    by_cases hm : m = w + 1
    · subst hm
      simp only [backtrackW]
      rw [if_neg hstop]
    · have hm2 : m ≤ w := by omega
      have hcond := h2 (w + 1) (by omega) (le_refl _)
      simp only [backtrackW]
      rw [if_pos hcond]
      exact ih hm2 (fun j hj1 hj2 => h2 j hj1 (by omega))

/-- Backtracking from the end of the rendered accumulator `acc ++ [s]` stops
exactly at the boundary before `s`, so truncating there yields the rendering
of `acc`: popping one segment at the buffer level is `dropLast` at the
segment level. -/
theorem backtrack_render (rooted : Bool) (acc : List (List Char)) (s : List Char)
    (hs : s ≠ []) (hsc : ∀ c ∈ s, isSep c = false) (hacc : GoodAcc rooted acc) :
    (renderP rooted (acc ++ [s])).take
        (backtrackW (renderP rooted (acc ++ [s])) (ddOf rooted acc)
          ((renderP rooted (acc ++ [s])).length - 1)) = renderP rooted acc := by
  have hbuf : renderP rooted (acc ++ [s]) =
      renderP rooted acc ++ ((if acc = [] then [] else ['/']) ++ s) :=
    renderP_append rooted acc s
  set B := renderP rooted acc with hB
  set sp : List Char := if acc = [] then [] else ['/'] with hsp
  have hdd : ddOf rooted acc ≤ B.length := ddOf_le rooted acc hacc
  have hdde : acc = [] → ddOf rooted acc = B.length := by
    intro h
    subst h
    cases rooted <;> simp [ddOf, renderP, joinSegs, hB]
  have hslen : 0 < s.length := List.length_pos.mpr hs
  have hsplen : sp.length ≤ 1 := by
    by_cases h : acc = [] <;> simp [hsp, h]
  have hlen : (B ++ (sp ++ s)).length = B.length + sp.length + s.length := by
    simp [List.length_append]
    omega
  have hstop : ¬(ddOf rooted acc < B.length ∧
      isSep ((B ++ (sp ++ s)).getD B.length ' ') = false) := by
    by_cases ha : acc = []
    · rw [hdde ha]
      simp
    · have hv : (B ++ (sp ++ s)).getD B.length ' ' = '/' := by
        rw [List.getD_append_right _ _ _ _ (le_refl _)]
        simp [hsp, ha]
      rintro ⟨-, hc⟩
      rw [hv] at hc
      simp [isSep] at hc
  have hrange : ∀ j, B.length < j → j ≤ (B ++ (sp ++ s)).length - 1 →
      ddOf rooted acc < j ∧ isSep ((B ++ (sp ++ s)).getD j ' ') = false := by
    intro j hj1 hj2
    refine ⟨lt_of_le_of_lt hdd hj1, ?_⟩
    have hjlen : sp.length ≤ j - B.length := by
      by_cases h : acc = []
      · simp [hsp, h]
      · simp only [hsp, if_neg h, List.length_singleton]
        omega
    have hgd : (B ++ (sp ++ s)).getD j ' ' = s.getD (j - B.length - sp.length) ' ' := by
      rw [List.getD_append_right _ _ _ _ (by omega), List.getD_append_right _ _ _ _ hjlen]
    have hidx : j - B.length - sp.length < s.length := by omega
    rw [hgd, List.getD_eq_getElem?_getD, List.getElem?_eq_getElem hidx]
    exact hsc _ (List.getElem_mem hidx)
  have hw : B.length ≤ (B ++ (sp ++ s)).length - 1 := by omega
  have hres := backtrackW_stop (B ++ (sp ++ s)) (ddOf rooted acc) B.length hstop
    ((B ++ (sp ++ s)).length - 1) hw hrange
  rw [hbuf, hres, List.take_left]

theorem takeWhile_nonsep_eq_nil_iff (l : List Char) :
    (l.takeWhile (fun x => !(isSep x)) = []) ↔ (l = [] ∨ isSep (l.headD ' ') = true) := by
  cases l with
  | nil => simp
  | cons c r =>
    rw [List.takeWhile_cons]
    by_cases h : isSep c <;> simp [h]

theorem dropWhile_nonsep_of_sep (l : List Char) (h : l = [] ∨ isSep (l.headD ' ') = true) :
    l.dropWhile (fun x => !(isSep x)) = l := by
  cases l with
  | nil => rfl
  | cons c r =>
    simp only [List.headD_cons] at h
    rcases h with h | h
    · exact absurd h (by simp)
    · rw [List.dropWhile_cons]
      simp [h]

theorem takeWhile_nonsep_eq_dot_iff (l : List Char) :
    (l.takeWhile (fun x => !(isSep x)) = ['.']) ↔
      (l.headD ' ' = '.' ∧ (l.tail = [] ∨ isSep (l.tail.headD ' ') = true)) := by
  cases l with
  | nil => simp
  | cons c r =>
    rw [List.takeWhile_cons]
    by_cases h : isSep c
    · have : c ≠ '.' := by
        intro hc
        subst hc
        simp [isSep] at h
      simp [h, this]
    · simp only [h, Bool.not_false, if_pos]
      constructor
      · intro he
        have hc1 : c = '.' := (List.cons_eq_cons.mp he).1
        have hc2 : r.takeWhile (fun x => !(isSep x)) = [] := (List.cons_eq_cons.mp he).2
        refine ⟨by simp [hc1], ?_⟩
        simp only [List.tail_cons]
        exact (takeWhile_nonsep_eq_nil_iff r).mp hc2
      · rintro ⟨h1, h2⟩
        simp only [List.headD_cons] at h1
        simp only [List.tail_cons] at h2
        subst h1
        rw [(takeWhile_nonsep_eq_nil_iff r).mpr h2]

/-- Members of a `takeWhile` run of non-separator characters are not
separators. -/
theorem mem_takeWhile_nonsep (l : List Char) (c : Char)
    (h : c ∈ l.takeWhile (fun x => !(isSep x))) : isSep c = false := by
  have := List.mem_takeWhile_imp h
  simpa using this

/-- The rendered accumulator is empty (resp. the bare root) exactly when the
accumulator holds no segment: the separator-insertion test of the real
element branch. -/
theorem renderP_sep_cond (rooted : Bool) (acc : List (List Char)) (hacc : GoodAcc rooted acc) :
    ((rooted = true ∧ (renderP rooted acc).length ≠ 1) ∨
      (rooted = false ∧ (renderP rooted acc).length ≠ 0)) ↔ acc ≠ [] := by
  have hnil : joinSegs acc = [] ↔ acc = [] :=
    joinSegs_eq_nil_iff acc (fun s hs => (goodAcc_mem rooted acc hacc s hs).1)
  cases rooted with
  | true =>
    constructor
    · rintro (⟨-, h⟩ | ⟨h, -⟩)
      · intro hc
        apply h
        subst hc
        simp [renderP, joinSegs]
      · simp at h
    · intro h
      refine Or.inl ⟨rfl, ?_⟩
      intro hc
      apply h
      apply hnil.mp
      apply List.length_eq_zero.mp
      have hlen : (renderP true acc).length = (joinSegs acc).length + 1 := by simp [renderP]
      omega
  | false =>
    constructor
    · rintro (⟨h, -⟩ | ⟨-, h⟩)
      · simp at h
      · intro hc
        apply h
        subst hc
        simp [renderP, joinSegs]
    · intro h
      refine Or.inr ⟨rfl, ?_⟩
      intro hc
      apply h
      apply hnil.mp
      apply List.length_eq_zero.mp
      have hlen : (renderP false acc).length = (joinSegs acc).length := by simp [renderP]
      omega

theorem goodAcc_append_seg (rooted : Bool) (acc : List (List Char)) (s : List Char)
    (hacc : GoodAcc rooted acc) (hs : GoodSeg s) (hsd : s ≠ dd2) :
    GoodAcc rooted (acc ++ [s]) := by
  obtain ⟨k, others, rfl, hg, hk⟩ := hacc
  refine ⟨k, others ++ [s], by simp, ?_, hk⟩
  intro t ht
  rcases List.mem_append.mp ht with hm | hm
  · exact hg t hm
  · simp at hm
    subst hm
    exact ⟨hs, hsd⟩

theorem goodAcc_pop (rooted : Bool) (acc : List (List Char)) (hacc : GoodAcc rooted acc)
    (h1 : acc ≠ []) (h2 : acc.getLast? ≠ some dd2) :
    GoodAcc rooted acc.dropLast ∧ GoodSeg (acc.getLast h1) ∧
      acc.getLast h1 ≠ dd2 := by
  obtain ⟨k, others, heq, hg, hk⟩ := hacc
  have hld : acc.getLast h1 ≠ dd2 := by
    intro hc
    exact h2 (by rw [List.getLast?_eq_getLast acc h1, hc])
  have ho : others ≠ [] := by
    intro hc
    subst hc
    rw [List.append_nil] at heq
    subst heq
    cases k with
    | zero => simp at h1
    | succ k2 =>
      exact h2 (by rw [List.getLast?_replicate]; simp)
  refine ⟨?_, ?_, hld⟩
  · subst heq
    rw [List.dropLast_append_of_ne_nil _ ho]
    exact ⟨k, others.dropLast, rfl,
      fun t ht => hg t ((List.dropLast_sublist others).subset ht), hk⟩
  · have hmem : acc.getLast h1 ∈ List.replicate k dd2 ++ others := by
      rw [← heq]
      exact List.getLast_mem h1
    rcases List.mem_append.mp hmem with hm | hm
    · exact absurd (List.eq_of_mem_replicate hm) hld
    · exact (hg _ hm).1

theorem goodAcc_nopop (rooted : Bool) (acc : List (List Char)) (hacc : GoodAcc rooted acc)
    (h : ¬(acc ≠ [] ∧ acc.getLast? ≠ some dd2)) :
    ∃ k, acc = List.replicate k dd2 ∧ (rooted = true → k = 0) := by
  obtain ⟨k, others, rfl, hg, hk⟩ := hacc
  refine ⟨k, ?_, hk⟩
  by_cases ho : others = []
  · simp [ho]
  · exfalso
    apply h
    refine ⟨List.append_ne_nil_of_right_ne_nil _ ho, ?_⟩
    rw [List.getLast?_append, List.getLast?_eq_getLast others ho]
    intro hc
    exact (hg _ (List.getLast_mem ho)).2 (Option.some.inj hc)

theorem renderP_dots_len (k : Nat) :
    ddOf false (List.replicate k dd2) = (renderP false (List.replicate k dd2)).length := by
  simp only [ddOf, renderP, if_neg (Bool.false_ne_true), List.takeWhile_replicate]
  simp

theorem renderP_dots_succ (k : Nat) :
    (if 0 < (renderP false (List.replicate k dd2)).length
     then renderP false (List.replicate k dd2) ++ ['/']
     else renderP false (List.replicate k dd2)) ++ dd2 =
      renderP false (List.replicate (k + 1) dd2) := by
  have hmem : ∀ s ∈ List.replicate k dd2, s ≠ [] := by
    intro s hs
    rw [List.eq_of_mem_replicate hs]
    exact goodSeg_dd2.1
  simp only [renderP, if_neg (Bool.false_ne_true)]
  by_cases hk : k = 0
  · subst hk
    simp [joinSegs, dd2]
  · have hne : List.replicate k dd2 ≠ [] := by
      intro hc
      have := congrArg List.length hc
      simp at this
      exact hk this
    have hjne : joinSegs (List.replicate k dd2) ≠ [] :=
      fun hc => hne ((joinSegs_eq_nil_iff _ hmem).mp hc)
    rw [if_pos (List.length_pos.mpr hjne), List.replicate_succ', joinSegs_append_single,
      if_neg hne]
    simp

/-- The central correspondence: running `cleanLoop` on a buffer that renders
a well-formed accumulator produces the rendering of the accumulator after
folding the tokenized remaining input through `pushSeg`. -/
theorem cleanLoop_spec (rooted : Bool) :
    ∀ (n : Nat) (rest : List Char), rest.length ≤ n → ∀ acc, GoodAcc rooted acc →
      cleanLoop rooted rest (renderP rooted acc) (ddOf rooted acc) =
        renderP rooted (processSegs rooted acc (segsOf rest)) := by
  intro n
  induction n with
  | zero =>
    intro rest hlen acc _
    have hr : rest = [] := List.length_eq_zero.mp (Nat.le_zero.mp hlen)
    subst hr
    simp [cleanLoop, segsOf, processSegs]
  | succ n ih =>
    intro rest hlen acc hacc
    cases rest with
    | nil => simp [cleanLoop, segsOf, processSegs]
    | cons c r =>
      have hrlen : r.length ≤ n := by
        simp only [List.length_cons] at hlen
        omega
      rw [cleanLoop, segsOf]
      by_cases h1 : isSep c = true
      · rw [if_pos h1, if_pos h1]
        exact ih r hrlen acc hacc
      · rw [if_neg h1, if_neg h1]
        by_cases h2 : c = '.' ∧ (r = [] ∨ isSep (r.headD ' ') = true)
        · -- "." element
          rw [if_pos h2]
          have hseg : c :: r.takeWhile (fun x => !(isSep x)) = ['.'] := by
            rw [(takeWhile_nonsep_eq_nil_iff r).mpr h2.2, h2.1]
          rw [hseg, if_pos rfl, dropWhile_nonsep_of_sep r h2.2]
          exact ih r hrlen acc hacc
        · rw [if_neg h2]
          by_cases h3 : c = '.' ∧ r.headD ' ' = '.' ∧
              (r.tail = [] ∨ isSep (r.tail.headD ' ') = true)
          · -- ".." element
            rw [if_pos h3]
            obtain ⟨hc, hh, ht⟩ := h3
            subst hc
            have hr : r ≠ [] := by
              intro hc2
              subst hc2
              simp at hh
            obtain ⟨c2, rt, rfl⟩ := List.exists_cons_of_ne_nil hr
            simp only [List.headD_cons] at hh
            subst hh
            simp only [List.tail_cons] at ht ⊢
            have hseg : ('.' : Char) :: List.takeWhile (fun x => !(isSep x)) ('.' :: rt) =
                dd2 := by
              rw [(takeWhile_nonsep_eq_dot_iff ('.' :: rt)).mpr (by simpa using ht)]
              rfl
            have hrt : rt.length ≤ n := by
              simp only [List.length_cons] at hrlen
              omega
            have hr2 : List.dropWhile (fun x => !(isSep x)) ('.' :: rt) = rt := by
              rw [List.dropWhile_cons, if_pos (by simp [isSep])]
              exact dropWhile_nonsep_of_sep rt (by simpa using ht)
            conv_rhs => rw [hseg, hr2, if_neg (show ¬(dd2 = ['.']) by simp [dd2])]
            have hps : processSegs rooted acc (dd2 :: segsOf rt) =
                processSegs rooted (pushSeg rooted acc dd2) (segsOf rt) := rfl
            rw [hps]
            by_cases hpop : ddOf rooted acc < (renderP rooted acc).length
            · -- can backtrack: pop the last segment
              rw [if_pos hpop]
              have hcan := (ddOf_lt_iff rooted acc hacc).mp hpop
              obtain ⟨hdrop, hlastg, hlastd⟩ := goodAcc_pop rooted acc hacc hcan.1 hcan.2
              have hid : acc.dropLast ++ [acc.getLast hcan.1] = acc :=
                List.dropLast_append_getLast hcan.1
              have hdd : ddOf rooted acc = ddOf rooted acc.dropLast := by
                conv_lhs => rw [← hid]
                exact ddOf_append rooted acc.dropLast _ hdrop hlastd
              have htake : (renderP rooted acc).take
                  (backtrackW (renderP rooted acc) (ddOf rooted acc)
                    ((renderP rooted acc).length - 1)) = renderP rooted acc.dropLast := by
                have hbr := backtrack_render rooted acc.dropLast (acc.getLast hcan.1)
                  hlastg.1 hlastg.2.1 hdrop
                rw [hid] at hbr
                rw [← hdd] at hbr
                exact hbr
              have hpush : pushSeg rooted acc dd2 = acc.dropLast := by
                rw [pushSeg, if_pos rfl, if_pos hcan]
              rw [htake, hdd, hpush]
              exact ih rt hrt acc.dropLast hdrop
            · -- cannot backtrack
              rw [if_neg hpop]
              have hnocan := fun hc => hpop ((ddOf_lt_iff rooted acc hacc).mpr hc)
              obtain ⟨k, rfl, hk⟩ := goodAcc_nopop rooted acc hacc hnocan
              cases rooted with
              | false =>
                rw [if_pos rfl]
                have hpush : pushSeg false (List.replicate k dd2) dd2 =
                    List.replicate (k + 1) dd2 := by
                  rw [pushSeg, if_pos rfl, if_neg hnocan]
                  simp [List.replicate_succ']
                rw [show (['.', '.'] : List Char) = dd2 from rfl]
                rw [renderP_dots_succ k, ← renderP_dots_len (k + 1), hpush]
                exact ih rt hrt (List.replicate (k + 1) dd2)
                  ⟨k + 1, [], by simp, by simp, by simp⟩
              | true =>
                rw [if_neg (by simp)]
                have hk0 : k = 0 := hk rfl
                subst hk0
                have hpush : pushSeg true (List.replicate 0 dd2) dd2 =
                    List.replicate 0 dd2 := by
                  rw [pushSeg, if_pos rfl, if_neg hnocan]
                  simp
                rw [hpush]
                exact ih rt hrt _ hacc
          · -- real path element
            rw [if_neg h3]
            have hsegd : c :: r.takeWhile (fun x => !(isSep x)) ≠ ['.'] := by
              intro hc
              have h1c : c = '.' := (List.cons_eq_cons.mp hc).1
              exact h2 ⟨h1c, (takeWhile_nonsep_eq_nil_iff r).mp (List.cons_eq_cons.mp hc).2⟩
            have hsegdd : c :: r.takeWhile (fun x => !(isSep x)) ≠ dd2 := by
              intro hc
              have h1c : c = '.' := (List.cons_eq_cons.mp hc).1
              have h2c := (takeWhile_nonsep_eq_dot_iff r).mp (List.cons_eq_cons.mp hc).2
              exact h3 ⟨h1c, h2c.1, h2c.2⟩
            have hsegg : GoodSeg (c :: r.takeWhile (fun x => !(isSep x))) := by
              refine ⟨by simp, ?_, hsegd⟩
              intro x hx
              rcases List.mem_cons.mp hx with hx | hx
              · subst hx
                simpa using h1
              · exact mem_takeWhile_nonsep r x hx
            rw [if_neg hsegd]
            have hps : processSegs rooted acc
                ((c :: r.takeWhile (fun x => !(isSep x))) :: segsOf
                  (r.dropWhile (fun x => !(isSep x)))) =
                processSegs rooted (acc ++ [c :: r.takeWhile (fun x => !(isSep x))])
                  (segsOf (r.dropWhile (fun x => !(isSep x)))) := by
              show processSegs rooted (pushSeg rooted acc _) _ = _
              rw [pushSeg, if_neg hsegdd]
            rw [hps]
            have hbuf2 : (if (rooted = true ∧ (renderP rooted acc).length ≠ 1) ∨
                  (rooted = false ∧ (renderP rooted acc).length ≠ 0)
                then renderP rooted acc ++ ['/'] else renderP rooted acc) ++
                  (c :: r.takeWhile (fun x => !(isSep x))) =
                renderP rooted (acc ++ [c :: r.takeWhile (fun x => !(isSep x))]) := by
              rw [renderP_append]
              by_cases ha : acc = []
              · rw [if_neg, if_pos ha]
                · simp
                · rw [renderP_sep_cond rooted acc hacc]
                  simp [ha]
              · rw [if_pos ((renderP_sep_cond rooted acc hacc).mpr ha), if_neg ha]
                simp
            rw [hbuf2]
            have hdd3 : ddOf rooted acc =
                ddOf rooted (acc ++ [c :: r.takeWhile (fun x => !(isSep x))]) :=
              (ddOf_append rooted acc _ hacc hsegdd).symm
            rw [hdd3]
            exact ih (r.dropWhile (fun x => !(isSep x)))
              (le_trans (List.dropWhile_sublist _).length_le hrlen)
              (acc ++ [c :: r.takeWhile (fun x => !(isSep x))])
              (goodAcc_append_seg rooted acc _ hacc hsegg hsegdd)

/-- Every token produced by `segsOf` is nonempty, separator-free and
distinct from `"."`. -/
theorem segsOf_good : ∀ (n : Nat) (p : List Char), p.length ≤ n →
    ∀ s ∈ segsOf p, s ≠ [] ∧ (∀ c ∈ s, isSep c = false) ∧ s ≠ ['.'] := by
  intro n
  induction n with
  | zero =>
    intro p hlen s hs
    have hp : p = [] := List.length_eq_zero.mp (Nat.le_zero.mp hlen)
    subst hp
    simp [segsOf] at hs
  | succ n ih =>
    intro p hlen s hs
    cases p with
    | nil => simp [segsOf] at hs
    | cons c r =>
      have hrlen : r.length ≤ n := by
        simp only [List.length_cons] at hlen
        omega
      rw [segsOf] at hs
      by_cases h1 : isSep c = true
      · rw [if_pos h1] at hs
        exact ih r hrlen s hs
      · rw [if_neg h1] at hs
        have hdlen : (r.dropWhile (fun x => !(isSep x))).length ≤ n :=
          le_trans (List.dropWhile_sublist _).length_le hrlen
        by_cases h2 : c :: r.takeWhile (fun x => !(isSep x)) = ['.']
        · rw [if_pos h2] at hs
          exact ih _ hdlen s hs
        · rw [if_neg h2] at hs
          rcases List.mem_cons.mp hs with hm | hm
          · subst hm
            refine ⟨by simp, ?_, h2⟩
            intro x hx
            rcases List.mem_cons.mp hx with hx | hx
            · subst hx
              simpa using h1
            · exact mem_takeWhile_nonsep r x hx
          · exact ih _ hdlen s hm

/-- `pushSeg` preserves the accumulator invariant for any well-formed
token. -/
theorem goodAcc_pushSeg (rooted : Bool) (acc : List (List Char)) (s : List Char)
    (hacc : GoodAcc rooted acc)
    (hseg : s ≠ [] ∧ (∀ c ∈ s, isSep c = false) ∧ s ≠ ['.']) :
    GoodAcc rooted (pushSeg rooted acc s) := by
  rw [pushSeg]
  by_cases hd : s = dd2
  · rw [if_pos hd]
    by_cases hcan : acc ≠ [] ∧ acc.getLast? ≠ some dd2
    · rw [if_pos hcan]
      exact (goodAcc_pop rooted acc hacc hcan.1 hcan.2).1
    · rw [if_neg hcan]
      obtain ⟨k, rfl, hk⟩ := goodAcc_nopop rooted acc hacc hcan
      cases rooted with
      | true => simpa using ⟨k, [], by simp, by simp, hk⟩
      | false =>
        rw [if_neg (by simp)]
        subst hd
        rw [← List.replicate_succ']
        exact ⟨k + 1, [], by simp, by simp, by simp⟩
  · rw [if_neg hd]
    exact goodAcc_append_seg rooted acc s hacc ⟨hseg.1, hseg.2.1, hseg.2.2⟩ hd

theorem goodAcc_processSegs (rooted : Bool) :
    ∀ (segs : List (List Char)) (acc : List (List Char)), GoodAcc rooted acc →
    (∀ s ∈ segs, s ≠ [] ∧ (∀ c ∈ s, isSep c = false) ∧ s ≠ ['.']) →
    GoodAcc rooted (processSegs rooted acc segs) := by
  intro segs
  induction segs with
  | nil => exact fun acc hacc _ => hacc
  | cons s ss ih =>
    intro acc hacc hg
    exact ih (pushSeg rooted acc s)
      (goodAcc_pushSeg rooted acc s hacc (hg s (by simp)))
      (fun t ht => hg t (by simp [ht]))

/-- The canonical output accumulator of cleaning `p`. -/
def outSegs (p : List Char) : List (List Char) :=
  processSegs (isSep (p.headD ' ')) [] (segsOf p)

theorem goodAcc_outSegs (p : List Char) : GoodAcc (isSep (p.headD ' ')) (outSegs p) :=
  goodAcc_processSegs _ (segsOf p) [] (goodAcc_nil _)
    (segsOf_good p.length p (le_refl _))

/-- `filepath.Clean` agrees with its segment-level description. -/
theorem clean_eq_spec (p : List Char) : clean p = cleanSpec p := by
  rw [clean, cleanSpec]
  by_cases hp : p = []
  · rw [if_pos hp, if_pos hp]
  · rw [if_neg hp, if_neg hp]
    simp only [isAbs]
    by_cases hr : isSep (p.headD ' ') = true
    · rw [if_pos hr, if_pos hr, hr]
      have h0 := cleanLoop_spec true p.tail.length p.tail (le_refl _) [] (goodAcc_nil true)
      simp only [renderP, ddOf, joinSegs, if_true, ite_true] at h0
      have hseg : segsOf p = segsOf p.tail := by
        obtain ⟨c, t, rfl⟩ := List.exists_cons_of_ne_nil hp
        simp only [List.headD_cons] at hr
        rw [segsOf, if_pos hr]
        simp
      rw [hseg, dotIfEmpty, h0, if_neg (by simp)]
    · rw [if_neg hr, if_neg hr]
      have hrf : isSep (p.headD ' ') = false := by simpa using hr
      rw [hrf]
      have h0 := cleanLoop_spec false p.length p (le_refl _) [] (goodAcc_nil false)
      simp only [renderP, ddOf, joinSegs, if_neg (Bool.false_ne_true),
        List.takeWhile_nil, List.length_nil] at h0
      rw [dotIfEmpty, h0]
      have hiff : joinSegs (processSegs false [] (segsOf p)) = [] ↔
          processSegs false [] (segsOf p) = [] := by
        apply joinSegs_eq_nil_iff
        intro s hs
        exact (goodAcc_mem false _ (goodAcc_processSegs false (segsOf p) []
          (goodAcc_nil false) (segsOf_good p.length p (le_refl _))) s hs).1
      by_cases ho : processSegs false [] (segsOf p) = []
      · rw [if_pos (hiff.mpr ho), if_pos ho]
      · rw [if_neg (fun hc => ho (hiff.mp hc)), if_neg ho]

/-- The shape of `clean` on rooted input. -/
theorem clean_abs_shape (p : List Char) (hr : isSep (p.headD ' ') = true) :
    clean p = '/' :: joinSegs (outSegs p) := by
  have hp : p ≠ [] := by
    intro hc
    subst hc
    simp [isSep] at hr
  rw [clean_eq_spec, cleanSpec, if_neg hp]
  simp only [isAbs, hr, if_true, ite_true]
  rw [outSegs, hr]

/-- The shape of `clean` on non-rooted input (including the empty path). -/
theorem clean_rel_shape (p : List Char) (hr : isSep (p.headD ' ') = false) :
    clean p = if outSegs p = [] then ['.'] else joinSegs (outSegs p) := by
  by_cases hp : p = []
  · subst hp
    simp [clean, outSegs, segsOf, processSegs]
  · rw [clean_eq_spec, cleanSpec, if_neg hp]
    simp only [isAbs, hr]
    rw [outSegs, hr]
    simp

/-- `splitSep` of a separator-free list is that single piece. -/
theorem splitSep_nonsep (s : List Char) (h : ∀ c ∈ s, isSep c = false) :
    splitSep s = [s] := by
  induction s with
  | nil => rfl
  | cons c r ih =>
    rw [splitSep, if_neg (by simp [h c (by simp)])]
    rw [ih (fun x hx => h x (by simp [hx]))]

/-- `splitSep` across a separator splits there. -/
theorem splitSep_append_sep (s X : List Char) (h : ∀ c ∈ s, isSep c = false) :
    splitSep (s ++ '/' :: X) = s :: splitSep X := by
  induction s with
  | nil =>
    simp only [List.nil_append]
    rw [splitSep, if_pos (by simp [isSep])]
  | cons c r ih =>
    simp only [List.cons_append]
    rw [splitSep, if_neg (by simp [h c (by simp)])]
    rw [ih (fun x hx => h x (by simp [hx]))]

/-- Splitting undoes joining for nonempty separator-free pieces. -/
theorem splitSep_joinSegs (out : List (List Char)) (hne : out ≠ [])
    (h : ∀ s ∈ out, s ≠ [] ∧ ∀ c ∈ s, isSep c = false) :
    splitSep (joinSegs out) = out := by
  induction out with
  | nil => exact absurd rfl hne
  | cons s rest ih =>
    cases rest with
    | nil =>
      rw [joinSegs]
      exact splitSep_nonsep s (h s (by simp)).2
    | cons s2 rest2 =>
      rw [joinSegs, splitSep_append_sep s _ (h s (by simp)).2]
      rw [ih (by simp) (fun t ht => h t (by simp [ht]))]

theorem takeWhile_nonsep_append_sep (s X : List Char) (h : ∀ c ∈ s, isSep c = false) :
    (s ++ '/' :: X).takeWhile (fun x => !(isSep x)) = s := by
  induction s with
  | nil =>
    simp only [List.nil_append, List.takeWhile_cons]
    simp [isSep]
  | cons c r ih =>
    simp only [List.cons_append, List.takeWhile_cons]
    rw [if_pos (by simp [h c (by simp)])]
    rw [ih (fun x hx => h x (by simp [hx]))]

theorem dropWhile_nonsep_append_sep (s X : List Char) (h : ∀ c ∈ s, isSep c = false) :
    (s ++ '/' :: X).dropWhile (fun x => !(isSep x)) = '/' :: X := by
  induction s with
  | nil =>
    simp only [List.nil_append, List.dropWhile_cons]
    simp [isSep]
  | cons c r ih =>
    simp only [List.cons_append, List.dropWhile_cons]
    rw [if_pos (by simp [h c (by simp)])]
    exact ih (fun x hx => h x (by simp [hx]))

/-- Tokenizing undoes joining for well-formed pieces. -/
theorem segsOf_joinSegs (out : List (List Char))
    (h : ∀ s ∈ out, s ≠ [] ∧ (∀ c ∈ s, isSep c = false) ∧ s ≠ ['.']) :
    segsOf (joinSegs out) = out := by
  induction out with
  | nil => simp [joinSegs, segsOf]
  | cons s rest ih =>
    obtain ⟨hs1, hs2, hs3⟩ := h s (by simp)
    obtain ⟨c, s', rfl⟩ := List.exists_cons_of_ne_nil hs1
    cases rest with
    | nil =>
      rw [joinSegs, segsOf, if_neg (by simp [hs2 c (by simp)])]
      rw [List.takeWhile_eq_self_iff.mpr (fun x hx => by simp [hs2 x (by simp [hx])])]
      rw [if_neg hs3]
      have hd : s'.dropWhile (fun x => !(isSep x)) = [] := by
        rw [List.dropWhile_eq_nil_iff]
        intro x hx
        simp [hs2 x (by simp [hx])]
      rw [hd]
      simp [segsOf]
    | cons s2 rest2 =>
      rw [joinSegs]
      simp only [List.cons_append]
      rw [segsOf]
      rw [if_neg (by simp [hs2 c (by simp)])]
      rw [takeWhile_nonsep_append_sep s' _ (fun x hx => hs2 x (by simp [hx]))]
      rw [if_neg hs3]
      rw [dropWhile_nonsep_append_sep s' _ (fun x hx => hs2 x (by simp [hx]))]
      have hrec : segsOf ('/' :: joinSegs (s2 :: rest2)) = segsOf (joinSegs (s2 :: rest2)) := by
        rw [segsOf, if_pos (by simp [isSep])]
      rw [hrec, ih (fun t ht => h t (by simp [ht]))]

/-- Folding tokens that are never `".."` just appends them. -/
theorem processSegs_no_dd (rooted : Bool) :
    ∀ (segs acc : List (List Char)), (∀ s ∈ segs, s ≠ dd2) →
      processSegs rooted acc segs = acc ++ segs := by
  intro segs
  induction segs with
  | nil => simp [processSegs]
  | cons s rest ih =>
    intro acc hs
    have h1 : processSegs rooted acc (s :: rest) =
        processSegs rooted (pushSeg rooted acc s) rest := rfl
    rw [h1, pushSeg, if_neg (hs s (by simp))]
    rw [ih (acc ++ [s]) (fun t ht => hs t (by simp [ht]))]
    simp

/-- On rooted input the output accumulator contains only well-formed
non-`".."` segments. -/
theorem outSegs_abs_good (p : List Char) (hr : isSep (p.headD ' ') = true) :
    ∀ s ∈ outSegs p, s ≠ [] ∧ (∀ c ∈ s, isSep c = false) ∧ s ≠ ['.'] ∧ s ≠ dd2 := by
  have hg := goodAcc_outSegs p
  rw [hr] at hg
  obtain ⟨k, others, heq, hgo, hk⟩ := hg
  rw [hk rfl] at heq
  simp only [List.replicate_zero, List.nil_append] at heq
  intro s hs
  rw [outSegs, hr] at hs
  rw [outSegs, hr] at heq
  rw [heq] at hs
  obtain ⟨⟨h1, h2, h3⟩, h4⟩ := hgo s hs
  exact ⟨h1, h2, h3, h4⟩

/-- On non-rooted input the output accumulator contains only well-formed
segments, with any `".."` segments forming a prefix. -/
theorem outSegs_rel_good (p : List Char) :
    ∀ s ∈ outSegs p, s ≠ [] ∧ (∀ c ∈ s, isSep c = false) ∧ s ≠ ['.'] := by
  intro s hs
  obtain ⟨h1, h2⟩ := goodAcc_mem _ _ (goodAcc_outSegs p) s hs
  refine ⟨h1, h2, ?_⟩
  obtain ⟨k, others, heq, hgo, -⟩ := goodAcc_outSegs p
  rw [heq] at hs
  rcases List.mem_append.mp hs with hm | hm
  · rw [List.eq_of_mem_replicate hm]
    exact goodSeg_dd2.2.2
  · exact (hgo s hm).1.2.2

/-- The element list produced by `splitPath` on a rooted path is the root
element followed by the cleaned segments. -/
theorem splitPath_abs (p : List Char) (hr : isSep (p.headD ' ') = true) :
    splitPath p = (['/'] :: outSegs p, []) := by
  have hshape := clean_abs_shape p hr
  rw [splitPath, hshape]
  have habs : isAbs ('/' :: joinSegs (outSegs p)) = true := by
    simp [isAbs, isSep]
  rw [if_pos habs]
  by_cases ho : outSegs p = []
  · rw [ho]
    simp [joinSegs]
  · have hjo : joinSegs (outSegs p) ≠ [] := by
      intro hc
      exact ho ((joinSegs_eq_nil_iff _
        (fun s hs => (outSegs_abs_good p hr s hs).1)).mp hc)
    have hlen : 1 < ('/' :: joinSegs (outSegs p)).length := by
      simp only [List.length_cons]
      have := List.length_pos.mpr hjo
      omega
    rw [if_pos hlen]
    simp only [List.drop_succ_cons, List.drop_zero]
    rw [splitSep_joinSegs (outSegs p) ho
      (fun s hs => ⟨(outSegs_abs_good p hr s hs).1, (outSegs_abs_good p hr s hs).2.1⟩)]
    rfl

/-- The element list produced by `splitPath` on a non-rooted path. -/
theorem splitPath_rel (p : List Char) (hr : isSep (p.headD ' ') = false) :
    splitPath p = (if outSegs p = [] then [['.']] else outSegs p, []) := by
  have hshape := clean_rel_shape p hr
  rw [splitPath, hshape]
  by_cases ho : outSegs p = []
  · rw [if_pos ho] at *
    rw [if_pos ho]
    have : isAbs (['.'] : List Char) = false := by simp [isAbs, isSep]
    rw [if_neg (by simp [this])]
    simp [splitSep, isSep]
  · rw [if_neg ho] at *
    rw [if_neg ho]
    obtain ⟨s, out', heq⟩ := List.exists_cons_of_ne_nil ho
    have hsg := outSegs_rel_good p s (by rw [heq]; simp)
    obtain ⟨c, s', rfl⟩ := List.exists_cons_of_ne_nil hsg.1
    have hhead : (joinSegs (outSegs p)).headD ' ' = c := by
      rw [heq]
      cases out' with
      | nil => simp [joinSegs]
      | cons s2 rest2 => simp [joinSegs]
    have habs : isAbs (joinSegs (outSegs p)) = false := by
      rw [isAbs, hhead]
      exact hsg.2.1 c (by simp)
    rw [if_neg (by simp [habs])]
    have hjo : joinSegs (outSegs p) ≠ [] := by
      intro hc
      exact ho ((joinSegs_eq_nil_iff _
        (fun s hs => (outSegs_rel_good p s hs).1)).mp hc)
    rw [if_pos (List.length_pos.mpr hjo)]
    rw [splitSep_joinSegs (outSegs p) ho
      (fun t ht => ⟨(outSegs_rel_good p t ht).1, (outSegs_rel_good p t ht).2.1⟩)]

/-- Joining the root element and the cleaned segments reconstructs the
cleaned rooted path. -/
theorem goJoinList_root (out : List (List Char))
    (h : ∀ s ∈ out, s ≠ [] ∧ (∀ c ∈ s, isSep c = false) ∧ s ≠ ['.'] ∧ s ≠ dd2) :
    goJoinList (['/'] :: out) = '/' :: joinSegs out := by
  rw [goJoinList]
  have hdrop : (['/'] :: out).dropWhile (fun e => e.isEmpty) = ['/'] :: out := by
    rw [List.dropWhile_cons]
    simp
  rw [hdrop]
  cases out with
  | nil =>
    show clean (joinSegs [['/']]) = ['/']
    rw [show joinSegs [['/']] = ['/'] from rfl]
    rw [clean_abs_shape ['/'] (by simp [isSep])]
    rw [show outSegs ['/'] = [] by simp [outSegs, segsOf, processSegs, isSep]]
    rfl
  | cons s out' =>
    show clean (joinSegs (['/'] :: s :: out')) = '/' :: joinSegs (s :: out')
    rw [show joinSegs (['/'] :: s :: out') = '/' :: '/' :: joinSegs (s :: out') from rfl]
    rw [clean_abs_shape _ (by simp [isSep])]
    have hsegs : segsOf ('/' :: '/' :: joinSegs (s :: out')) = s :: out' := by
      rw [segsOf, if_pos (by simp [isSep]), segsOf, if_pos (by simp [isSep])]
      exact segsOf_joinSegs (s :: out') (fun t ht =>
        ⟨(h t ht).1, (h t ht).2.1, (h t ht).2.2.1⟩)
    rw [outSegs, hsegs]
    simp only [List.headD_cons]
    rw [show isSep '/' = true by simp [isSep]]
    rw [processSegs_no_dd true (s :: out') [] (fun t ht => (h t ht).2.2.2)]
    simp

/-! ## Collapsing repeated separators

The spec states that inputs with repeated separators produce the same
elements as the input with single separators.  `collapseSeps` rewrites every
run of separators to a single one; we show `splitPath` cannot distinguish
the two inputs. -/

/-- Collapse every run of separators to a single separator. -/
def collapseSeps : List Char → List Char
  | [] => []
  | c :: r =>
      if isSep c then c :: collapseSeps (r.dropWhile (fun x => isSep x))
      else c :: collapseSeps r
termination_by l => l.length
decreasing_by
  all_goals simp only [List.length_cons]
  all_goals
    first
      | omega
      | exact Nat.lt_succ_of_le (List.dropWhile_sublist _).length_le

theorem segsOf_dropWhile_sep : ∀ (n : Nat) (r : List Char), r.length ≤ n →
    segsOf (r.dropWhile (fun x => isSep x)) = segsOf r := by
  intro n
  induction n with
  | zero =>
    intro r hlen
    rw [List.length_eq_zero.mp (Nat.le_zero.mp hlen)]
    rfl
  | succ n ih =>
    intro r hlen
    cases r with
    | nil => rfl
    | cons c r' =>
      have hrlen : r'.length ≤ n := by
        simp only [List.length_cons] at hlen
        omega
      rw [List.dropWhile_cons]
      by_cases h : isSep c
      · rw [if_pos h, ih r' hrlen, segsOf, if_pos h]
      · rw [if_neg h]

theorem collapse_take_drop : ∀ (n : Nat) (x : List Char), x.length ≤ n →
    (collapseSeps x).takeWhile (fun t => !(isSep t)) = x.takeWhile (fun t => !(isSep t)) ∧
    (collapseSeps x).dropWhile (fun t => !(isSep t)) =
      collapseSeps (x.dropWhile (fun t => !(isSep t))) := by
  intro n
  induction n with
  | zero =>
    intro x hlen
    rw [List.length_eq_zero.mp (Nat.le_zero.mp hlen)]
    rw [show collapseSeps [] = [] from by rw [collapseSeps]]
    exact ⟨rfl, by rw [List.dropWhile_nil, show collapseSeps [] = [] from by rw [collapseSeps]]⟩
  | succ n ih =>
    intro x hlen
    cases x with
    | nil =>
      rw [show collapseSeps [] = [] from by rw [collapseSeps]]
      exact ⟨rfl, by rw [List.dropWhile_nil, show collapseSeps [] = [] from by rw [collapseSeps]]⟩
    | cons a x' =>
      have hxlen : x'.length ≤ n := by
        simp only [List.length_cons] at hlen
        omega
      rw [collapseSeps]
      by_cases h : isSep a
      · rw [if_pos h]
        constructor
        · rw [List.takeWhile_cons, List.takeWhile_cons]
          simp [h]
        · rw [List.dropWhile_cons, List.dropWhile_cons]
          simp only [h, Bool.not_true, if_neg (by simp : ¬(false = true))]
          rw [collapseSeps, if_pos h]
      · rw [if_neg h]
        constructor
        · rw [List.takeWhile_cons, List.takeWhile_cons]
          simp only [h, Bool.not_false, if_pos]
          rw [(ih x' hxlen).1]
        · rw [List.dropWhile_cons, List.dropWhile_cons]
          simp only [h, Bool.not_false, if_pos]
          exact (ih x' hxlen).2

theorem segsOf_collapse : ∀ (n : Nat) (p : List Char), p.length ≤ n →
    segsOf (collapseSeps p) = segsOf p := by
  intro n
  induction n with
  | zero =>
    intro p hlen
    rw [List.length_eq_zero.mp (Nat.le_zero.mp hlen)]
    rw [show collapseSeps [] = [] from by rw [collapseSeps]]
  | succ n ih =>
    intro p hlen
    cases p with
    | nil => rw [show collapseSeps [] = [] from by rw [collapseSeps]]
    | cons c r =>
      have hrlen : r.length ≤ n := by
        simp only [List.length_cons] at hlen
        omega
      rw [collapseSeps]
      by_cases h : isSep c
      · rw [if_pos h, segsOf, if_pos h, segsOf, if_pos h]
        rw [ih _ (le_trans (List.dropWhile_sublist _).length_le hrlen)]
        exact segsOf_dropWhile_sep r.length r (le_refl _)
      · rw [if_neg h, segsOf, if_neg h, segsOf, if_neg h]
        rw [(collapse_take_drop r.length r (le_refl _)).1,
          (collapse_take_drop r.length r (le_refl _)).2]
        rw [ih _ (le_trans (List.dropWhile_sublist _).length_le hrlen)]

theorem collapse_headD (p : List Char) : (collapseSeps p).headD ' ' = p.headD ' ' := by
  cases p with
  | nil => rw [show collapseSeps [] = [] from by rw [collapseSeps]]
  | cons c r =>
    rw [collapseSeps]
    by_cases h : isSep c
    · rw [if_pos h]
      rfl
    · rw [if_neg h]
      rfl

theorem outSegs_collapse (p : List Char) : outSegs (collapseSeps p) = outSegs p := by
  rw [outSegs, outSegs, collapse_headD, segsOf_collapse p.length p (le_refl _)]

theorem splitPath_collapse (p : List Char) :
    splitPath (collapseSeps p) = splitPath p := by
  by_cases h : isSep (p.headD ' ') = true
  · rw [splitPath_abs p h, splitPath_abs (collapseSeps p) (by rw [collapse_headD]; exact h),
      outSegs_collapse]
  · have hf : isSep (p.headD ' ') = false := by simpa using h
    rw [splitPath_rel p hf, splitPath_rel (collapseSeps p) (by rw [collapse_headD]; exact hf),
      outSegs_collapse]

/-! ## The traversal walker

`walk`/`walkRecursive`/`makeEntry` (lsi.go) perform filesystem lookups and
invoke a visitor per path element.  The filesystem and identity databases are
abstracted as an `FS` record of total functions returning `Except` (error
payloads are abstract numbers); Go's `context` cancellation is a monotone
signal sampled once per `ctx.Err()` call, modelled by a `tick` counter
threaded through the walk and a predicate `Ctx.fired` on tick indices.  The
walker also produces an event trace recording every filesystem access,
identity lookup, visitor invocation and nested recursive call, so that
theorems can speak about what the walker did.  Go's unbounded recursion
through symlink targets is modelled with an explicit `fuel` bound on the
link-following depth only (the per-level element loop is structural); a walk
that would recurse deeper than its fuel returns the artificial `fuelOut`
error. -/

/-- Errors: cancellation, the four lookup failure kinds (with abstract
payloads), visitor-supplied errors, and fuel exhaustion (a modelling
artifact). -/
inductive WErr where
  | canceled
  | lstatE (n : Nat)
  | readlinkE (n : Nat)
  | userE (n : Nat)
  | groupE (n : Nat)
  | custom (n : Nat)
  | fuelOut
deriving DecidableEq

/-- The platform metadata of one file, as read from `syscall.Stat_t` and
`fs.FileMode`. -/
structure Stat where
  mode : Nat
  dev : Nat
  ino : Nat
  size : Int
  uid : Int
  gid : Int
deriving DecidableEq

/-- The abstract filesystem and identity database. -/
structure FS where
  lstat : List Char → Except Nat Stat
  readlink : List Char → Except Nat (List Char)
  stat : List Char → Except Nat Stat
  userName : Int → Except Nat (List Char)
  groupName : Int → Except Nat (List Char)
  cwd : Except Nat (List Char)

/-- The cancellation signal: `fired t` tells whether the `t`-th `ctx.Err()`
observation reports cancellation. -/
structure Ctx where
  fired : Nat → Bool

/-- `entry` from lsi.go. -/
structure Entry where
  Path : List Char
  Volume : List Char
  Name : List Char
  Link : List Char
  Mode : List Char
  Dev : Nat
  Pdev : Nat
  Inode : Nat
  Size : Int
  Uid : Int
  User : List Char
  Gid : Int
  Group : List Char
  Level : Nat
  Info : Option Stat
  Err : Option WErr
deriving DecidableEq

/-- Events observable during a walk. -/
inductive Ev where
  | access (p : List Char)
  | lookup (id : Int)
  | visit (e : Entry)
  | call (frm link : List Char) (level : Nat)
deriving DecidableEq

/-- `^uint64(0)`: the "no parent device" sentinel. -/
def sentinel : Nat := 2 ^ 64 - 1

/-- `filepath.Abs` on Unix: clean if already absolute, else join onto the
working directory (propagating a `Getwd` failure). -/
def goAbs (fs : FS) (p : List Char) : Except Nat (List Char) :=
  if isAbs p then .ok (clean p)
  else
    match fs.cwd with
    | .ok wd => .ok (goJoin wd p)
    | .error n => .error n

/-- The parent-device block of `makeEntry`: compute the absolute path, take
its directory, and `stat` it unless it equals the destination itself;
failures leave the sentinel. -/
def getParentDevice (fs : FS) (dest : List Char) : Nat × List Ev :=
  match goAbs fs dest with
  | .error _ => (sentinel, [])
  | .ok ab =>
      if dirPath ab ≠ dest then
        match fs.stat (dirPath ab) with
        | .ok pinfo => (pinfo.dev, [Ev.access (dirPath ab)])
        | .error _ => (sentinel, [Ev.access (dirPath ab)])
      else (sentinel, [])

/-- The owner/group block of `makeEntry`: resolve the numeric ids to names,
stopping at the first failure (user name, group name, error, events). -/
def getOwnerInfo (fs : FS) (info : Stat) :
    List Char × List Char × Option WErr × List Ev :=
  match fs.userName info.uid with
  | .error n => ([], [], some (.userE n), [Ev.lookup info.uid])
  | .ok u =>
      match fs.groupName info.gid with
      | .error n => (u, [], some (.groupE n), [Ev.lookup info.uid, Ev.lookup info.gid])
      | .ok g => (u, g, none, [Ev.lookup info.uid, Ev.lookup info.gid])

/-- The entry built after a successful `lstat` (and, for symlinks, a
successful `readlink`): device/inode/size and numeric ids are taken from the
stat before the identity lookups run, so they remain populated even when an
identity lookup fails and sets the entry error. -/
def mkResolved (fs : FS) (path volume name : List Char) (level : Nat)
    (dest link : List Char) (info : Stat) : Entry × List Ev :=
  ({ Path := path, Volume := volume, Name := name, Link := link, Mode := mode info.mode,
     Dev := info.dev, Pdev := (getParentDevice fs dest).1, Inode := info.ino,
     Size := info.size, Uid := info.uid, Gid := info.gid,
     User := (getOwnerInfo fs info).1, Group := (getOwnerInfo fs info).2.1,
     Level := level, Info := some info, Err := (getOwnerInfo fs info).2.2.1 },
   (getParentDevice fs dest).2 ++ (getOwnerInfo fs info).2.2.2)

/-- `makeEntry` from lsi.go.  Returns the entry, the events, and the
advanced tick (one `ctx.Err()` observation per call). -/
def makeEntryM (fs : FS) (ctx : Ctx) (tick : Nat) (frm path volume name : List Char)
    (level : Nat) : Entry × List Ev × Nat :=
  if ctx.fired tick then
    ({ Path := path, Volume := volume, Name := name, Link := [], Mode := [], Dev := 0,
       Pdev := 0, Inode := 0, Size := 0, Uid := 0, Gid := 0, User := [], Group := [],
       Level := level, Info := none, Err := some .canceled }, [], tick + 1)
  else
    let dest := goJoin frm path
    match fs.lstat dest with
    | .error n =>
        ({ Path := path, Volume := volume, Name := name, Link := [], Mode := [], Dev := 0,
           Pdev := sentinel, Inode := 0, Size := 0, Uid := 0, Gid := 0, User := [],
           Group := [], Level := level, Info := none, Err := some (.lstatE n) },
         [Ev.access dest], tick + 1)
    | .ok info =>
        if info.mode.testBit 27 then
          match fs.readlink dest with
          | .error n =>
              ({ Path := path, Volume := volume, Name := name, Link := [],
                 Mode := mode info.mode, Dev := 0, Pdev := sentinel, Inode := 0, Size := 0,
                 Uid := 0, Gid := 0, User := [], Group := [], Level := level,
                 Info := some info, Err := some (.readlinkE n) },
               [Ev.access dest, Ev.access dest], tick + 1)
          | .ok l =>
              ((mkResolved fs path volume name level dest l info).1,
               [Ev.access dest, Ev.access dest] ++
                 (mkResolved fs path volume name level dest l info).2, tick + 1)
        else
          ((mkResolved fs path volume name level dest [] info).1,
           [Ev.access dest] ++ (mkResolved fs path volume name level dest [] info).2,
           tick + 1)

/-- The visitor callback: receives the current tick (through which it can
observe the cancellation signal, as the repository's visitor does) and the
entry, and returns `(follow, err)`. -/
def Visitor : Type := Nat → Entry → Bool × Option WErr

/-- The element loop of `walkRecursive`.  `pre` is the list of elements
already consumed (`elem[:i]`), `rest` the remaining ones.  At a followed
symlink the body of `walkRecursive` for the target is inlined (cancellation
check, split, loop at `level + 1`), consuming one unit of fuel; `walkRec`
below shows the inlined form is exactly a nested `walkRec` call. -/
def walkLoop (fs : FS) (ctx : Ctx) (fn : Visitor) :
    Nat → Nat → List Char → List Char → List (List Char) → List (List Char) → Nat →
      Nat × List Ev × Option WErr
  | _, tick, _, _, _, [], _ => (tick, [], none)
  | fuel, tick, frm, volume, pre, name :: rest, level =>
    let me := makeEntryM fs ctx tick frm (goJoinList (pre ++ [name])) volume name level
    let e := me.1
    let t1 := me.2.2
    match (fn t1 e).2 with
    | some er => (t1, me.2.1 ++ [Ev.visit e], some er)
    | none =>
      if (fn t1 e).1 = true ∧ e.Link ≠ [] then
        let rel := if isAbs e.Link = false then goJoin frm (goJoinList pre) else []
        match fuel with
        | 0 => (t1, me.2.1 ++ [Ev.visit e], some .fuelOut)
        | fuel2 + 1 =>
          let nested :=
            if ctx.fired t1 then (t1 + 1, ([] : List Ev), some WErr.canceled)
            else walkLoop fs ctx fn fuel2 (t1 + 1) rel (splitPath e.Link).2 []
              (splitPath e.Link).1 (level + 1)
          match nested.2.2 with
          | some er =>
              (nested.1,
               me.2.1 ++ [Ev.visit e] ++ [Ev.call rel e.Link (level + 1)] ++ nested.2.1,
               some er)
          | none =>
            let cont :=
              walkLoop fs ctx fn (fuel2 + 1) nested.1 frm volume (pre ++ [name]) rest level
            (cont.1,
             me.2.1 ++ [Ev.visit e] ++ [Ev.call rel e.Link (level + 1)] ++ nested.2.1 ++
               cont.2.1,
             cont.2.2)
      else
        let cont := walkLoop fs ctx fn fuel t1 frm volume (pre ++ [name]) rest level
        (cont.1, me.2.1 ++ [Ev.visit e] ++ cont.2.1, cont.2.2)
termination_by fuel _ _ _ _ rest _ => (fuel, rest.length)

/-- `walkRecursive` from lsi.go: check cancellation, split the path, loop
over the elements. -/
def walkRec (fs : FS) (ctx : Ctx) (fn : Visitor) (fuel tick : Nat)
    (frm path : List Char) (level : Nat) : Nat × List Ev × Option WErr :=
  if ctx.fired tick then (tick + 1, [], some WErr.canceled)
  else walkLoop fs ctx fn fuel (tick + 1) frm (splitPath path).2 [] (splitPath path).1 level

/-- `walk` from lsi.go: start at the empty base and level 0. -/
def walk (fs : FS) (ctx : Ctx) (fn : Visitor) (fuel : Nat) (path : List Char) :
    Nat × List Ev × Option WErr :=
  walkRec fs ctx fn fuel 0 [] path 0

/-- The mount-point indicator of `print` (main.go): `"@"` exactly when the
entry's device differs from its parent device. -/
def mountInd (e : Entry) : List Char := if e.Dev ≠ e.Pdev then ['@'] else []

/-- The entries handed to the visitor, in order, as recorded in the trace. -/
def visits (evs : List Ev) : List Entry :=
  evs.filterMap (fun ev => match ev with | .visit e => some e | _ => none)

/-! ## The leading character of the mode string -/

theorem dashLoop_length (m : Nat) : ∀ (i : Nat) (s : List Char),
    (dashLoop m i s).length = s.length := by
  intro i
  induction i with
  | zero => intro s; rfl
  | succ i ih =>
    intro s
    rw [dashLoop, ih]
    by_cases h : m.testBit i = false <;> simp [h]

theorem dashLoop_get0 (m : Nat) : ∀ (i : Nat) (s : List Char), i ≤ 9 →
    (dashLoop m i s)[0]? = s[0]? := by
  intro i
  induction i with
  | zero => intro s _; rfl
  | succ i ih =>
    intro s hi
    rw [dashLoop, ih _ (by omega)]
    by_cases h : m.testBit i = false
    · rw [if_pos h]
      exact List.getElem?_set_ne (by omega)
    · rw [if_neg h]

/-- The head character accumulated by the file-type loop. -/
def typeFold (m : Nat) : List Char → Nat → Char → Char
  | [], _, a => a
  | c :: cs, i, a => typeFold m cs (i + 1) (if c ≠ '-' ∧ m.testBit (32 - 1 - i) then c else a)

theorem typeLoopAux_get0 (m : Nat) : ∀ (cs : List Char) (i : Nat) (s : List Char),
    0 < s.length → (typeLoopAux m cs i s)[0]? = some (typeFold m cs i (s.headD ' ')) := by
  intro cs
  induction cs with
  | nil =>
    intro i s hs
    rw [typeLoopAux, typeFold]
    cases s with
    | nil => simp at hs
    | cons a t => simp
  | cons c cs ih =>
    intro i s hs
    rw [typeLoopAux, typeFold]
    have hlen : 0 < (if c ≠ '-' ∧ m.testBit (32 - 1 - i) then s.set 0 c else s).length := by
      by_cases h : c ≠ '-' ∧ m.testBit (32 - 1 - i) <;> simp [h, hs]
    rw [ih _ _ hlen]
    congr 1
    by_cases h : c ≠ '-' ∧ m.testBit (32 - 1 - i)
    · rw [if_pos h, if_pos h]
      cases s with
      | nil => simp at hs
      | cons a t => simp
    · rw [if_neg h, if_neg h]

theorem typeLoopAux_length (m : Nat) : ∀ (cs : List Char) (i : Nat) (s : List Char),
    (typeLoopAux m cs i s).length = s.length := by
  intro cs
  induction cs with
  | nil => intro i s; rfl
  | cons c cs ih =>
    intro i s
    rw [typeLoopAux, ih]
    by_cases h : c ≠ '-' ∧ m.testBit (32 - 1 - i) <;> simp [h]

/-- The first character of the mode string, as a function of the file-type
bits: `?` for irregular, `c` for char device, `s` socket, `p` pipe, `b`
device, `l` symlink, `d` directory, `-` otherwise (later table entries win,
matching the loop order). -/
theorem mode_get0 (m : Nat) :
    (mode m)[0]? = some (
      if m.testBit 19 then '?'
      else if m.testBit 21 then 'c'
      else if m.testBit 24 then 's'
      else if m.testBit 25 then 'p'
      else if m.testBit 26 then 'b'
      else if m.testBit 27 then 'l'
      else if m.testBit 31 then 'd'
      else '-') := by
  rw [mode]
  set s0 : List Char := dashLoop m 9 ['-', 'r', 'w', 'x', 'r', 'w', 'x', 'r', 'w', 'x']
    with hs0
  have hlen0 : s0.length = 10 := by
    rw [hs0, dashLoop_length]
    rfl
  have hget0 : s0[0]? = some '-' := by
    rw [hs0, dashLoop_get0 m 9 _ (by omega)]
    rfl
  set s1 : List Char := typeLoopAux m attrTable 0 s0 with hs1
  have hlen1 : s1.length = 10 := by rw [hs1, typeLoopAux_length, hlen0]
  have hget1 : s1[0]? = some (typeFold m attrTable 0 (s0.headD ' ')) := by
    rw [hs1, typeLoopAux_get0 m attrTable 0 s0 (by omega)]
  have hhead0 : s0.headD ' ' = '-' := by
    rw [List.headD_eq_head?, List.head?_eq_getElem?, hget0]
    rfl
  rw [hhead0] at hget1
  set s2 : List Char := if m.testBit 23 then s1.set 3 (upperIf 's' (m.testBit 8 = false))
    else s1 with hs2
  have hlen2 : s2.length = 10 := by
    rw [hs2]
    by_cases h : m.testBit 23 <;> simp [h, hlen1]
  have hget2 : s2[0]? = s1[0]? := by
    rw [hs2]
    by_cases h : m.testBit 23
    · rw [if_pos h]
      exact List.getElem?_set_ne (by omega)
    · rw [if_neg h]
  set s3 : List Char := if m.testBit 22 then s2.set 6 (upperIf 's' (m.testBit 5 = false))
    else s2 with hs3
  have hlen3 : s3.length = 10 := by
    rw [hs3]
    by_cases h : m.testBit 22 <;> simp [h, hlen2]
  have hget3 : s3[0]? = s2[0]? := by
    rw [hs3]
    by_cases h : m.testBit 22
    · rw [if_pos h]
      exact List.getElem?_set_ne (by omega)
    · rw [if_neg h]
  set s4 : List Char := if m.testBit 20 then s3.set 9 (upperIf 't' (m.testBit 2 = false))
    else s3 with hs4
  have hlen4 : s4.length = 10 := by
    rw [hs4]
    by_cases h : m.testBit 20 <;> simp [h, hlen3]
  have hget4 : s4[0]? = s3[0]? := by
    rw [hs4]
    by_cases h : m.testBit 20
    · rw [if_pos h]
      exact List.getElem?_set_ne (by omega)
    · rw [if_neg h]
  have hfinal : (if m.testBit 30 ∨ m.testBit 29 ∨ m.testBit 28 then s4 ++ ['+'] else s4)[0]? =
      s4[0]? := by
    by_cases h : m.testBit 30 ∨ m.testBit 29 ∨ m.testBit 28
    · rw [if_pos h]
      exact List.getElem?_append_left (by omega)
    · rw [if_neg h]
  rw [hfinal, hget4, hget3, hget2, hget1]
  congr 1
  simp only [typeFold, attrTable]
  simp

/-! ## Walker lemmas -/

theorem visits_append (a b : List Ev) : visits (a ++ b) = visits a ++ visits b := by
  rw [visits, visits, visits, List.filterMap_append]

theorem visits_nil : visits [] = [] := rfl

theorem visits_cons_access (p : List Char) (l : List Ev) :
    visits (Ev.access p :: l) = visits l := by
  rw [visits, visits, List.filterMap_cons]

theorem visits_cons_visit (e : Entry) (l : List Ev) :
    visits (Ev.visit e :: l) = e :: visits l := by
  rw [visits, visits, List.filterMap_cons]

theorem visits_cons_call (a b : List Char) (n : Nat) (l : List Ev) :
    visits (Ev.call a b n :: l) = visits l := by
  rw [visits, visits, List.filterMap_cons]

theorem getParentDevice_visits (fs : FS) (dest : List Char) :
    visits (getParentDevice fs dest).2 = [] := by
  rw [getParentDevice]
  split
  · rfl
  · split
    · split <;> rfl
    · rfl

theorem getOwnerInfo_visits (fs : FS) (info : Stat) :
    visits (getOwnerInfo fs info).2.2.2 = [] := by
  rw [getOwnerInfo]
  split
  · rfl
  · split <;> rfl

/-- `makeEntry` performs no visitor invocation: its trace holds only
filesystem accesses and identity lookups. -/
theorem makeEntryM_visits (fs : FS) (ctx : Ctx) (tick : Nat)
    (frm path volume name : List Char) (level : Nat) :
    visits (makeEntryM fs ctx tick frm path volume name level).2.1 = [] := by
  simp only [makeEntryM]
  split
  · rfl
  · split
    · rfl
    · split
      · split
        · rfl
        · rw [mkResolved]
          simp only [List.cons_append, List.nil_append]
          rw [visits_cons_access, visits_cons_access, visits_append,
            getParentDevice_visits, getOwnerInfo_visits]
          rfl
      · rw [mkResolved]
        simp only [List.cons_append, List.nil_append]
        rw [visits_cons_access, visits_append, getParentDevice_visits, getOwnerInfo_visits]
        rfl

/-- Every branch of `makeEntry` copies the element name into the entry. -/
theorem makeEntryM_name (fs : FS) (ctx : Ctx) (tick : Nat)
    (frm path volume name : List Char) (level : Nat) :
    (makeEntryM fs ctx tick frm path volume name level).1.Name = name := by
  simp only [makeEntryM]
  split
  · rfl
  · split
    · rfl
    · split
      · split
        · rfl
        · rw [mkResolved]
      · rw [mkResolved]

/-- Every element produced by `splitPath` is a nonempty string. -/
theorem splitPath_ne_nil (p : List Char) : ∀ s ∈ (splitPath p).1, s ≠ [] := by
  by_cases h : isSep (p.headD ' ') = true
  · rw [splitPath_abs p h]
    intro s hs
    rcases List.mem_cons.mp hs with hm | hm
    · subst hm
      simp
    · exact (outSegs_abs_good p h s hm).1
  · have hf : isSep (p.headD ' ') = false := by simpa using h
    rw [splitPath_rel p hf]
    by_cases ho : outSegs p = []
    · rw [if_pos ho]
      intro s hs
      simp at hs
      subst hs
      simp
    · rw [if_neg ho]
      intro s hs
      exact (outSegs_rel_good p s hs).1

/-- Folding the nested cancellation-check/split/loop of a followed link back
into `walkRecursive`. -/
theorem walkRec_inline (fs : FS) (ctx : Ctx) (fn : Visitor) (fuel tick : Nat)
    (frm path : List Char) (level : Nat) :
    (if ctx.fired tick then (tick + 1, ([] : List Ev), some WErr.canceled)
     else walkLoop fs ctx fn fuel (tick + 1) frm (splitPath path).2 []
       (splitPath path).1 level) = walkRec fs ctx fn fuel tick frm path level := by
  rw [walkRec]

/-- Every entry handed to the visitor by the element loop carries the name
of one of the (nonempty) elements being iterated. -/
theorem walkLoop_names (fs : FS) (ctx : Ctx) (fn : Visitor) :
    ∀ (fuel n : Nat) (rest : List (List Char)), rest.length ≤ n →
    ∀ (tick : Nat) (frm volume : List Char) (pre : List (List Char)) (level : Nat),
    (∀ s ∈ rest, s ≠ []) →
    ∀ e ∈ visits (walkLoop fs ctx fn fuel tick frm volume pre rest level).2.1,
      e.Name ≠ [] := by
  intro fuel
  induction fuel using Nat.strong_induction_on with
  | _ fuel ihf =>
    intro n
    induction n with
    | zero =>
      intro rest hlen tick frm volume pre level _ e he
      rw [List.length_eq_zero.mp (Nat.le_zero.mp hlen)] at he
      rw [walkLoop] at he
      simp [visits] at he
    | succ n ihn =>
      intro rest hlen tick frm volume pre level hyp e' he'
      cases rest with
      | nil =>
        rw [walkLoop] at he'
        simp [visits] at he'
      | cons name rest2 =>
        have hr2len : rest2.length ≤ n := by
          simp only [List.length_cons] at hlen
          omega
        have hname : e' = (makeEntryM fs ctx tick frm (goJoinList (pre ++ [name]))
            volume name level).1 → e'.Name ≠ [] := by
          intro heq
          rw [heq, makeEntryM_name]
          exact hyp name (by simp)
        rw [walkLoop] at he'
        rcases hfe : (fn (makeEntryM fs ctx tick frm (goJoinList (pre ++ [name]))
            volume name level).2.2 (makeEntryM fs ctx tick frm (goJoinList (pre ++ [name]))
            volume name level).1).2 with - | er
        · simp only [hfe] at he'
          by_cases hfl : (fn (makeEntryM fs ctx tick frm (goJoinList (pre ++ [name]))
              volume name level).2.2 (makeEntryM fs ctx tick frm (goJoinList (pre ++ [name]))
              volume name level).1).1 = true ∧
              (makeEntryM fs ctx tick frm (goJoinList (pre ++ [name]))
                volume name level).1.Link ≠ []
          · rw [if_pos hfl] at he'
            cases fuel with
            | zero =>
              simp only [visits_append, visits_cons_visit, visits_cons_call, visits_nil,
                makeEntryM_visits, List.nil_append, List.append_nil, List.mem_append,
                List.mem_cons, List.not_mem_nil, or_false, false_or] at he'
              exact hname he'
            | succ fuel2 =>
              have hnest : ∀ e ∈ visits (if ctx.fired (makeEntryM fs ctx tick frm
                  (goJoinList (pre ++ [name])) volume name level).2.2 = true then
                    ((makeEntryM fs ctx tick frm (goJoinList (pre ++ [name]))
                      volume name level).2.2 + 1, ([] : List Ev), some WErr.canceled)
                  else walkLoop fs ctx fn fuel2 ((makeEntryM fs ctx tick frm
                    (goJoinList (pre ++ [name])) volume name level).2.2 + 1)
                    (if isAbs (makeEntryM fs ctx tick frm (goJoinList (pre ++ [name]))
                      volume name level).1.Link = false
                     then goJoin frm (goJoinList pre) else [])
                    (splitPath (makeEntryM fs ctx tick frm (goJoinList (pre ++ [name]))
                      volume name level).1.Link).2 []
                    (splitPath (makeEntryM fs ctx tick frm (goJoinList (pre ++ [name]))
                      volume name level).1.Link).1 (level + 1)).2.1, e.Name ≠ [] := by
                by_cases hfd : ctx.fired (makeEntryM fs ctx tick frm
                    (goJoinList (pre ++ [name])) volume name level).2.2 = true
                · rw [if_pos hfd]
                  intro e he
                  simp [visits] at he
                · rw [if_neg hfd]
                  exact ihf fuel2 (by omega) _ _ (le_refl _) _ _ _ _ _
                    (splitPath_ne_nil _)
              rcases hne : (if ctx.fired (makeEntryM fs ctx tick frm
                  (goJoinList (pre ++ [name])) volume name level).2.2 = true then
                    ((makeEntryM fs ctx tick frm (goJoinList (pre ++ [name]))
                      volume name level).2.2 + 1, ([] : List Ev), some WErr.canceled)
                  else walkLoop fs ctx fn fuel2 ((makeEntryM fs ctx tick frm
                    (goJoinList (pre ++ [name])) volume name level).2.2 + 1)
                    (if isAbs (makeEntryM fs ctx tick frm (goJoinList (pre ++ [name]))
                      volume name level).1.Link = false
                     then goJoin frm (goJoinList pre) else [])
                    (splitPath (makeEntryM fs ctx tick frm (goJoinList (pre ++ [name]))
                      volume name level).1.Link).2 []
                    (splitPath (makeEntryM fs ctx tick frm (goJoinList (pre ++ [name]))
                      volume name level).1.Link).1 (level + 1)).2.2 with - | er2
              · simp only [hne] at he'
                simp only [visits_append, visits_cons_visit, visits_cons_call, visits_nil,
                  makeEntryM_visits, List.nil_append, List.append_nil, List.mem_append,
                  List.mem_cons, List.not_mem_nil, or_false, false_or] at he'
                rcases he' with (he' | he') | he'
                · exact hname he'
                · exact hnest e' he'
                · exact ihn rest2 hr2len _ _ _ _ _
                    (fun s hs => hyp s (by simp [hs])) e' he'
              · simp only [hne] at he'
                simp only [visits_append, visits_cons_visit, visits_cons_call, visits_nil,
                  makeEntryM_visits, List.nil_append, List.append_nil, List.mem_append,
                  List.mem_cons, List.not_mem_nil, or_false, false_or] at he'
                rcases he' with he' | he'
                · exact hname he'
                · exact hnest e' he'
          · rw [if_neg hfl] at he'
            simp only [visits_append, visits_cons_visit, visits_cons_call, visits_nil,
              makeEntryM_visits, List.nil_append, List.append_nil, List.mem_append,
              List.mem_cons, List.not_mem_nil, or_false, false_or] at he'
            rcases he' with he' | he'
            · exact hname he'
            · exact ihn rest2 hr2len _ _ _ _ _
                (fun s hs => hyp s (by simp [hs])) e' he'
        · simp only [hfe] at he'
          simp only [visits_append, visits_cons_visit, visits_cons_call, visits_nil,
            makeEntryM_visits, List.nil_append, List.append_nil, List.mem_append,
            List.mem_cons, List.not_mem_nil, or_false, false_or] at he'
          exact hname he'

/-! ## Concrete fixtures for witnesses and counterexamples -/

/-- A filesystem on which every lookup fails. -/
def fsErr : FS :=
  { lstat := fun _ => .error 0, readlink := fun _ => .error 0, stat := fun _ => .error 0,
    userName := fun _ => .error 0, groupName := fun _ => .error 0, cwd := .error 0 }

/-- A cancellation signal that never fires. -/
def ctxNever : Ctx := ⟨fun _ => false⟩

/-- A cancellation signal that fires from the second observation on. -/
def ctxAfter1 : Ctx := ⟨fun t => decide (1 ≤ t)⟩

/-- A cancellation signal that is already fired at the first observation. -/
def ctxAlways : Ctx := ⟨fun _ => true⟩

/-- A visitor that never follows and swallows every error. -/
def fnSwallow : Visitor := fun _ _ => (false, none)

/-- A visitor that always follows and never aborts. -/
def fnFollowAll : Visitor := fun _ _ => (true, none)

/-- The repository's visitor shape: stop on the first entry error by
returning it (`collectEntries` in main.go). -/
def fnPropagate : Visitor := fun _ e => (true, e.Err)

/-- Stat of a directory on device 7. -/
def stDir : Stat := { mode := 2 ^ 31 + 0o755, dev := 7, ino := 1, size := 0, uid := 0, gid := 0 }

/-- Stat of a regular file on device 7. -/
def stFile : Stat := { mode := 0o644, dev := 7, ino := 2, size := 3, uid := 0, gid := 0 }

/-- Stat of a symlink on device 7. -/
def stLink : Stat := { mode := 2 ^ 27 + 0o777, dev := 7, ino := 3, size := 0, uid := 0, gid := 0 }

/-- A filesystem with `/tmp/a/link` a relative symlink to `../b/target`. -/
def fsTmp : FS :=
  { lstat := fun p =>
      if p = "/tmp/a/link".toList then .ok stLink
      else if p = "/tmp/b/target".toList then .ok stFile
      else if p = "/".toList then .ok stDir
      else if p = "/tmp".toList then .ok stDir
      else if p = "/tmp/a".toList then .ok stDir
      else if p = "/tmp/b".toList then .ok stDir
      else .error 2,
    readlink := fun p =>
      if p = "/tmp/a/link".toList then .ok "../b/target".toList else .error 3,
    stat := fun p =>
      if p = "/".toList then .ok stDir
      else if p = "/tmp".toList then .ok stDir
      else if p = "/tmp/a".toList then .ok stDir
      else if p = "/tmp/b".toList then .ok stDir
      else .error 2,
    userName := fun _ => .ok "root".toList,
    groupName := fun _ => .ok "root".toList,
    cwd := .ok "/".toList }

/-- A filesystem where `x` is a symlink whose target reads fine but whose
owner id cannot be resolved. -/
def stX : Stat := { mode := 2 ^ 27, dev := 1, ino := 1, size := 0, uid := 9, gid := 9 }

def fsLink : FS :=
  { lstat := fun p => if p = "x".toList then .ok stX else .error 2,
    readlink := fun p => if p = "x".toList then .ok "t".toList else .error 3,
    stat := fun _ => .error 1,
    userName := fun _ => .error 5,
    groupName := fun _ => .error 5,
    cwd := .ok "/c".toList }

/-- A filesystem where `x` is a symlink whose target cannot be read. -/
def fsRL : FS :=
  { lstat := fun p =>
      if p = "x".toList then .ok stLink else .error 2,
    readlink := fun _ => .error 3,
    stat := fun _ => .error 1,
    userName := fun _ => .ok "u".toList,
    groupName := fun _ => .ok "g".toList,
    cwd := .ok "/c".toList }

/-- A filesystem where everything about `d` resolves, with equal element and
parent device ids. -/
def fsOK : FS :=
  { lstat := fun p => if p = "d".toList then .ok stFile else .error 2,
    readlink := fun _ => .error 3,
    stat := fun p => if p = "/w".toList then .ok stDir else .error 2,
    userName := fun _ => .ok "u".toList,
    groupName := fun _ => .ok "g".toList,
    cwd := .ok "/w".toList }

/-! ## Claims -/

/-- **C1.** The claim states that with the set-user-id bit the owner-execute
position shows `s` exactly when the owner-execute bit (0o100) is set, and
analogously for set-group-id (0o010) and the sticky bit (0o001).  The code
instead consults the read bit of each class (0o400, 0o040, 0o004),
contradicting its own documentation, which promises the GNU `ls` convention.
Evaluating the embedded `mode` at the failing inputs: a sticky directory
with mode 0o111 (all execute bits set, no read bits) ends in `T` although
the spec requires `t`; a setuid file with only owner-execute shows `S`
although the spec requires `s`; and a setuid file with only owner-read shows
`s` although the spec requires `S`. -/
theorem C1_mode_special_bits_use_read_bits :
    mode (2 ^ 31 + 2 ^ 20 + 0o111) = "d--x--x--T".toList ∧
    mode (2 ^ 23 + 0o100) = "---S------".toList ∧
    mode (2 ^ 23 + 0o400) = "-r-s------".toList := by
  refine ⟨?_, ?_, ?_⟩ <;> decide

/-- **C7.** The leading character of the mode string is `d` for a directory,
`l` for a symlink, `b` for a block device, `c` for a char device (which sets
both the device bit 26 and the char-device bit 21), `p` for a named pipe,
`s` for a socket, and `-` for a regular/unspecified file, for every file
mode value with the corresponding type-bit pattern and arbitrary remaining
bits. -/
theorem C7_mode_leading_char (m : Nat) :
    (m.testBit 31 = true → m.testBit 27 = false → m.testBit 26 = false →
      m.testBit 25 = false → m.testBit 24 = false → m.testBit 21 = false →
      m.testBit 19 = false → (mode m).headD ' ' = 'd') ∧
    (m.testBit 27 = true → m.testBit 26 = false → m.testBit 25 = false →
      m.testBit 24 = false → m.testBit 21 = false → m.testBit 19 = false →
      (mode m).headD ' ' = 'l') ∧
    (m.testBit 26 = true → m.testBit 21 = false → m.testBit 24 = false →
      m.testBit 25 = false → m.testBit 19 = false → (mode m).headD ' ' = 'b') ∧
    (m.testBit 26 = true → m.testBit 21 = true → m.testBit 19 = false →
      (mode m).headD ' ' = 'c') ∧
    (m.testBit 25 = true → m.testBit 21 = false → m.testBit 24 = false →
      m.testBit 19 = false → (mode m).headD ' ' = 'p') ∧
    (m.testBit 24 = true → m.testBit 21 = false → m.testBit 19 = false →
      (mode m).headD ' ' = 's') ∧
    (m.testBit 31 = false → m.testBit 27 = false → m.testBit 26 = false →
      m.testBit 25 = false → m.testBit 24 = false → m.testBit 21 = false →
      m.testBit 19 = false → (mode m).headD ' ' = '-') := by
  have hh : (mode m).headD ' ' = ((mode m)[0]?).getD ' ' := by
    rw [List.headD_eq_head?, List.head?_eq_getElem?]
  refine ⟨?_, ?_, ?_, ?_, ?_, ?_, ?_⟩ <;>
    (intros; rw [hh, mode_get0]; simp_all)

/-- Witness for C7: each file type evaluated at a concrete mode value. -/
theorem C7_witness :
    (mode (2 ^ 31 + 0o755)).headD ' ' = 'd' ∧
    (mode (2 ^ 27 + 0o777)).headD ' ' = 'l' ∧
    (mode (2 ^ 26 + 0o660)).headD ' ' = 'b' ∧
    (mode (2 ^ 26 + 2 ^ 21 + 0o660)).headD ' ' = 'c' ∧
    (mode (2 ^ 25 + 0o600)).headD ' ' = 'p' ∧
    (mode (2 ^ 24 + 0o755)).headD ' ' = 's' ∧
    (mode 0o644).headD ' ' = '-' :=
  ⟨(C7_mode_leading_char _).1 (by decide) (by decide) (by decide) (by decide) (by decide)
      (by decide) (by decide),
   (C7_mode_leading_char _).2.1 (by decide) (by decide) (by decide) (by decide) (by decide)
      (by decide),
   (C7_mode_leading_char _).2.2.1 (by decide) (by decide) (by decide) (by decide) (by decide),
   (C7_mode_leading_char _).2.2.2.1 (by decide) (by decide) (by decide),
   (C7_mode_leading_char _).2.2.2.2.1 (by decide) (by decide) (by decide) (by decide),
   (C7_mode_leading_char _).2.2.2.2.2.1 (by decide) (by decide) (by decide),
   (C7_mode_leading_char _).2.2.2.2.2.2 (by decide) (by decide) (by decide) (by decide)
      (by decide) (by decide) (by decide)⟩

/-- **C8.** `splitPath` on the empty string yields the single
current-directory element `.`; on the root-only path it yields the single
root element with empty volume; and collapsing repeated separators to single
ones never changes the result (shown also on the concrete example
`/usr/local/bin` and a doubled-separator variant). -/
theorem C8_splitPath_edge_cases :
    splitPath [] = ([['.']], []) ∧
    splitPath ['/'] = ([['/']], []) ∧
    splitPath "/usr/local/bin".toList =
      ([['/'], "usr".toList, "local".toList, "bin".toList], []) ∧
    splitPath "//usr///local//bin".toList =
      ([['/'], "usr".toList, "local".toList, "bin".toList], []) ∧
    (∀ p : List Char, splitPath (collapseSeps p) = splitPath p) := by
  refine ⟨?_, ?_, ?_, ?_, splitPath_collapse⟩ <;>
    simp +decide [splitPath, clean, dotIfEmpty, cleanLoop, splitSep, isSep, isAbs]

/-- **C6.** For every cleaned absolute path `p`, joining the elements
returned by `splitPath p` with `filepath.Join` reproduces `p` itself (`p` is
already clean, so this is lexical equivalence), and no element besides the
leading root element contains a separator. -/
theorem C6_splitPath_join_roundtrip (p : List Char) (hclean : clean p = p)
    (habs : isAbs p = true) :
    goJoinList ((splitPath p).1) = p ∧
    ∀ s ∈ ((splitPath p).1).drop 1, ∀ c ∈ s, isSep c = false := by
  have hr : isSep (p.headD ' ') = true := habs
  rw [splitPath_abs p hr]
  constructor
  · rw [goJoinList_root (outSegs p) (outSegs_abs_good p hr)]
    rw [← clean_abs_shape p hr, hclean]
  · intro s hs
    simp only [List.drop_succ_cons, List.drop_zero] at hs
    exact (outSegs_abs_good p hr s hs).2.1

/-- Witness for C6: the round trip evaluated on `/usr/local/bin`. -/
theorem C6_witness :
    clean "/usr/local/bin".toList = "/usr/local/bin".toList ∧
    isAbs "/usr/local/bin".toList = true ∧
    goJoinList ((splitPath "/usr/local/bin".toList).1) = "/usr/local/bin".toList :=
  ⟨by simp +decide [clean, dotIfEmpty, cleanLoop, isSep],
   by decide,
   (C6_splitPath_join_roundtrip "/usr/local/bin".toList
      (by simp +decide [clean, dotIfEmpty, cleanLoop, isSep]) (by decide)).1⟩

/-- **C9.** Every record handed to the visitor by a walk has a non-empty
name (for any filesystem, input path, visitor, and cancellation signal):
`splitPath` never returns an empty element, and every visited entry's name
is one of the elements.  (The claim's carve-out for cancellation records is
not even needed: a cancellation record also carries the element name.) -/
theorem C9_visited_names_nonempty (fs : FS) (ctx : Ctx) (fn : Visitor) (fuel : Nat)
    (path : List Char) (e : Entry)
    (he : e ∈ visits (walk fs ctx fn fuel path).2.1) :
    e.Name ≠ [] ∨ e.Err = some WErr.canceled := by
  left
  rw [walk, walkRec] at he
  by_cases hf : ctx.fired 0 = true
  · rw [if_pos hf] at he
    simp [visits] at he
  · rw [if_neg hf] at he
    exact walkLoop_names fs ctx fn fuel (splitPath path).1.length (splitPath path).1
      (le_refl _) 1 [] (splitPath path).2 [] 0 (splitPath_ne_nil path) e he

/-- Witness for C9: the single record visited when walking `a` over the
all-failing filesystem. -/
theorem C9_witness :
    (makeEntryM fsErr ctxNever 1 [] "a".toList [] "a".toList 0).1.Name ≠ [] ∨
    (makeEntryM fsErr ctxNever 1 [] "a".toList [] "a".toList 0).1.Err =
      some WErr.canceled :=
  C9_visited_names_nonempty fsErr ctxNever fnSwallow 1 "a".toList _ (by
    simp +decide [walk, walkRec, walkLoop, visits, makeEntryM, fsErr, ctxNever, fnSwallow,
      splitPath, splitSep, goJoin, goJoinList, clean, cleanLoop, dotIfEmpty, isSep, isAbs,
      sentinel, joinSegs])

/-- **C5.** For an error-free record, the mount-point indicator of `print`
is `@` exactly when the record's device id differs from its parent device
id; it is absent when they agree, in particular when both lookups failed
and left the two sentinel values.  For such a record the device id comes
from the element's `lstat` and the parent device id from the
parent-resolution block. -/
theorem C5_mount_indicator (fs : FS) (ctx : Ctx) (tick : Nat)
    (frm path volume name : List Char) (level : Nat) (e : Entry)
    (hee : e = (makeEntryM fs ctx tick frm path volume name level).1)
    (hok : e.Err = none) :
    ((mountInd e = ['@']) ↔ e.Dev ≠ e.Pdev) ∧
    (e.Dev = e.Pdev → mountInd e = []) ∧
    (e.Dev = sentinel ∧ e.Pdev = sentinel → mountInd e = []) ∧
    ∃ info, fs.lstat (goJoin frm path) = Except.ok info ∧ e.Dev = info.dev ∧
      e.Pdev = (getParentDevice fs (goJoin frm path)).1 := by
  refine ⟨?_, ?_, ?_, ?_⟩
  · by_cases hne : e.Dev = e.Pdev <;> simp [mountInd, hne]
  · intro h
    simp [mountInd, h]
  · rintro ⟨h1, h2⟩
    simp [mountInd, h1, h2]
  · subst hee
    by_cases hf : ctx.fired tick = true
    · rw [makeEntryM, if_pos hf] at hok
      exact absurd hok (by simp)
    · rcases hl : fs.lstat (goJoin frm path) with n | info
      · exfalso
        simp only [makeEntryM, if_neg hf, hl] at hok
        exact Option.noConfusion hok
      · by_cases hsym : info.mode.testBit 27 = true
        · rcases hr : fs.readlink (goJoin frm path) with n | l
          · exfalso
            simp only [makeEntryM, if_neg hf, hl, hsym, if_true, hr] at hok
            exact Option.noConfusion hok
          · refine ⟨info, rfl, ?_, ?_⟩ <;>
              simp only [makeEntryM, if_neg hf, hl, hsym, if_true, hr, mkResolved]
        · refine ⟨info, rfl, ?_, ?_⟩ <;>
            simp only [makeEntryM, if_neg hf, hl, hsym, if_false, Bool.false_eq_true,
              mkResolved]

/-- Witness for C5: a fully resolvable file whose device matches its
parent's, so no mount indicator is shown. -/
theorem C5_witness :
    (makeEntryM fsOK ctxNever 0 [] "d".toList [] "d".toList 0).1.Err = none ∧
    ((mountInd (makeEntryM fsOK ctxNever 0 [] "d".toList [] "d".toList 0).1 = ['@']) ↔
      (makeEntryM fsOK ctxNever 0 [] "d".toList [] "d".toList 0).1.Dev ≠
        (makeEntryM fsOK ctxNever 0 [] "d".toList [] "d".toList 0).1.Pdev) := by
  have herr : (makeEntryM fsOK ctxNever 0 [] "d".toList [] "d".toList 0).1.Err = none := by
    simp +decide [makeEntryM, fsOK, ctxNever, goJoin, goJoinList, clean, cleanLoop,
      dotIfEmpty, isSep, isAbs, mkResolved, getOwnerInfo, getParentDevice, goAbs, dirPath,
      stFile, stDir, splitSep, joinSegs, sentinel]
  exact ⟨herr, (C5_mount_indicator fsOK ctxNever 0 [] "d".toList [] "d".toList 0 _ rfl
    herr).1⟩

/-- When the cancellation signal has fired, `makeEntry` returns the bare
cancellation record and performs no filesystem access. -/
theorem makeEntryM_fired (fs : FS) (ctx : Ctx) (tick : Nat)
    (frm path volume name : List Char) (level : Nat) (h : ctx.fired tick = true) :
    makeEntryM fs ctx tick frm path volume name level =
      ({ Path := path, Volume := volume, Name := name, Link := [], Mode := [], Dev := 0,
         Pdev := 0, Inode := 0, Size := 0, Uid := 0, User := [], Gid := 0, Group := [],
         Level := level, Info := none, Err := some WErr.canceled }, [], tick + 1) := by
  rw [makeEntryM, if_pos h]

/-- **C4.** The claim says every record with a non-nil error has zero
mode/device/inode/size/identity metadata.  That holds for cancellation and
`lstat` failure, but not in general: when `Readlink` fails the record keeps
the mode string computed from the successful `lstat` (shown concretely:
error `readlinkE` with mode `lrwxrwxrwx`), and when an identity lookup
fails the record keeps link, device, inode, size and numeric ids (shown
concretely: error `userE` with device 1, inode 1, uid 9 and link `t`). -/
theorem C4_counterexample :
    (makeEntryM fsRL ctxNever 0 [] "x".toList [] "x".toList 0).1.Err =
      some (WErr.readlinkE 3) ∧
    (makeEntryM fsRL ctxNever 0 [] "x".toList [] "x".toList 0).1.Mode =
      "lrwxrwxrwx".toList ∧
    (makeEntryM fsLink ctxNever 0 [] "x".toList [] "x".toList 0).1.Err =
      some (WErr.userE 5) ∧
    (makeEntryM fsLink ctxNever 0 [] "x".toList [] "x".toList 0).1.Dev = 1 ∧
    (makeEntryM fsLink ctxNever 0 [] "x".toList [] "x".toList 0).1.Link = "t".toList := by
  refine ⟨?_, ?_, ?_, ?_, ?_⟩ <;>
    simp +decide [makeEntryM, fsRL, fsLink, ctxNever, goJoin, goJoinList, clean, cleanLoop,
      dotIfEmpty, isSep, isAbs, stLink, stX, splitSep, joinSegs, sentinel, mkResolved,
      getParentDevice, getOwnerInfo, goAbs, dirPath]

/-- **C4** (amended).  A record produced under a fired cancellation signal
has every metadata field at its zero value (and no filesystem access is
made); a record produced for a failing `lstat` has every metadata field at
its zero value except the parent device, which holds the `^uint64(0)`
sentinel, and exactly one access (the failing `lstat`) is made — in
particular no owner or parent-device resolution is attempted.  Records for
`Readlink` or identity failures keep the already-computed fields, as the
counterexample shows. -/
theorem C4_error_record_fields (fs : FS) (ctx : Ctx) (tick : Nat)
    (frm path volume name : List Char) (level : Nat) :
    (ctx.fired tick = true →
      (makeEntryM fs ctx tick frm path volume name level).1 =
        { Path := path, Volume := volume, Name := name, Link := [], Mode := [], Dev := 0,
          Pdev := 0, Inode := 0, Size := 0, Uid := 0, User := [], Gid := 0, Group := [],
          Level := level, Info := none, Err := some WErr.canceled } ∧
      (makeEntryM fs ctx tick frm path volume name level).2.1 = []) ∧
    (∀ n : Nat, ctx.fired tick = false → fs.lstat (goJoin frm path) = .error n →
      (makeEntryM fs ctx tick frm path volume name level).1 =
        { Path := path, Volume := volume, Name := name, Link := [], Mode := [], Dev := 0,
          Pdev := sentinel, Inode := 0, Size := 0, Uid := 0, User := [], Gid := 0,
          Group := [], Level := level, Info := none, Err := some (WErr.lstatE n) } ∧
      (makeEntryM fs ctx tick frm path volume name level).2.1 =
        [Ev.access (goJoin frm path)]) := by
  constructor
  · intro h
    rw [makeEntryM_fired fs ctx tick frm path volume name level h]
    exact ⟨rfl, rfl⟩
  · intro n hf hl
    constructor <;> simp only [makeEntryM, hf, Bool.false_eq_true, if_false, hl]

/-- Witness for C4 (amended): the fired and lstat-failure branches at
concrete inputs. -/
theorem C4_witness :
    (makeEntryM fsErr ctxAlways 0 [] "a".toList [] "a".toList 0).1.Err =
      some WErr.canceled ∧
    (makeEntryM fsErr ctxNever 0 [] "a".toList [] "a".toList 0).1.Pdev = sentinel ∧
    (makeEntryM fsErr ctxNever 0 [] "a".toList [] "a".toList 0).2.1 =
      [Ev.access (goJoin [] "a".toList)] := by
  have h1 := (C4_error_record_fields fsErr ctxAlways 0 [] "a".toList [] "a".toList 0).1 rfl
  have h2 := (C4_error_record_fields fsErr ctxNever 0 [] "a".toList [] "a".toList 0).2 0
    rfl rfl
  exact ⟨by rw [h1.1], by rw [h2.1], h2.2⟩

/-- **C3.** The claim states that a cancellation mid-walk yields exactly one
cancellation record and then stops, propagating the error.  That is false
for an arbitrary visitor: if the visitor swallows the error (returns nil),
the loop keeps going, producing one cancellation record per remaining
element and reporting no error at all.  Concretely, walking `a/b` with the
signal fired from the second observation on and a swallowing visitor yields
two cancellation records and a nil result. -/
theorem C3_counterexample :
    (walk fsErr ctxAfter1 fnSwallow 5 "a/b".toList).2.2 = none ∧
    (visits (walk fsErr ctxAfter1 fnSwallow 5 "a/b".toList).2.1).map Entry.Err =
      [some WErr.canceled, some WErr.canceled] := by
  constructor <;>
    simp +decide [walk, walkRec, walkLoop, visits, makeEntryM, fsErr, ctxAfter1, fnSwallow,
      splitPath, splitSep, goJoin, goJoinList, clean, cleanLoop, dotIfEmpty, isSep, isAbs,
      sentinel, joinSegs]

/-- **C3** (amended).  If the signal has fired when `walkRecursive` is
entered, it returns `context.Canceled` immediately with no record.  If the
signal fires at an element visit inside the loop, the record handed to the
visitor carries the `context.Canceled` error, and — provided the visitor
propagates cancellation errors, as the repository's own visitor does — the
loop stops at that single record and returns the cancellation. -/
theorem C3_cancellation_amended (fs : FS) (ctx : Ctx) (fn : Visitor) (fuel tick : Nat)
    (frm path volume name : List Char) (pre rest : List (List Char)) (level : Nat) :
    (ctx.fired tick = true →
      walkRec fs ctx fn fuel tick frm path level = (tick + 1, [], some WErr.canceled)) ∧
    (ctx.fired tick = true →
      (∀ (t : Nat) (e : Entry), e.Err = some WErr.canceled →
        (fn t e).2 = some WErr.canceled) →
      walkLoop fs ctx fn fuel tick frm volume pre (name :: rest) level =
        (tick + 1,
         [Ev.visit (makeEntryM fs ctx tick frm (goJoinList (pre ++ [name])) volume name
            level).1],
         some WErr.canceled) ∧
      (makeEntryM fs ctx tick frm (goJoinList (pre ++ [name])) volume name level).1.Err =
        some WErr.canceled) := by
  constructor
  · intro h
    rw [walkRec, if_pos h]
  · intro h hfn
    have hme := makeEntryM_fired fs ctx tick frm (goJoinList (pre ++ [name])) volume name
      level h
    have herr : (makeEntryM fs ctx tick frm (goJoinList (pre ++ [name])) volume name
        level).1.Err = some WErr.canceled := by rw [hme]
    refine ⟨?_, herr⟩
    have hv := hfn (makeEntryM fs ctx tick frm (goJoinList (pre ++ [name])) volume name
      level).2.2 (makeEntryM fs ctx tick frm (goJoinList (pre ++ [name])) volume name
      level).1 herr
    simp only [walkLoop, hv]
    rw [hme]
    rfl

/-- Witness for C3 (amended): both branches at a concrete fired signal with
the repository's propagating visitor. -/
theorem C3_witness :
    walkRec fsErr ctxAlways fnPropagate 3 0 [] "a".toList 0 =
      (1, [], some WErr.canceled) ∧
    walkLoop fsErr ctxAlways fnPropagate 3 0 [] [] [] ["a".toList] 0 =
      (1,
       [Ev.visit (makeEntryM fsErr ctxAlways 0 [] (goJoinList ([] ++ ["a".toList])) []
          "a".toList 0).1],
       some WErr.canceled) := by
  refine ⟨(C3_cancellation_amended fsErr ctxAlways fnPropagate 3 0 [] "a".toList []
    "a".toList [] [] 0).1 rfl, ?_⟩
  exact ((C3_cancellation_amended fsErr ctxAlways fnPropagate 3 0 [] "a".toList []
    "a".toList [] [] 0).2 rfl (fun t e h => by simp [fnPropagate, h])).1

/-- **C2.** When the visitor asks to follow a record with a non-empty link
target, the walker recurses on the target: a relative target is walked with
base `Join(from, Join(elem[:i]...))` — the directory containing the link —
and an absolute target with the empty base, in both cases one level deeper.
The loop's inlined recursion is exactly a nested `walkRecursive` call on
that base and target, and the trace records the recursion as a call event. -/
theorem C2_follow_resolves_link (fs : FS) (ctx : Ctx) (fn : Visitor) (fuel2 tick : Nat)
    (frm volume name : List Char) (pre rest : List (List Char)) (level : Nat)
    (e : Entry) (evs : List Ev) (t1 : Nat)
    (hme : makeEntryM fs ctx tick frm (goJoinList (pre ++ [name])) volume name level =
      (e, evs, t1))
    (hfn : (fn t1 e).2 = none) (hfollow : (fn t1 e).1 = true) (hlink : e.Link ≠ []) :
    walkLoop fs ctx fn (fuel2 + 1) tick frm volume pre (name :: rest) level =
      (let rel := if isAbs e.Link = false then goJoin frm (goJoinList pre) else []
       let nested := walkRec fs ctx fn fuel2 t1 rel e.Link (level + 1)
       match nested.2.2 with
       | some er =>
           (nested.1,
            evs ++ [Ev.visit e] ++ [Ev.call rel e.Link (level + 1)] ++ nested.2.1,
            some er)
       | none =>
           (let cont := walkLoop fs ctx fn (fuel2 + 1) nested.1 frm volume (pre ++ [name])
              rest level
            (cont.1,
             evs ++ [Ev.visit e] ++ [Ev.call rel e.Link (level + 1)] ++ nested.2.1 ++
               cont.2.1,
             cont.2.2))) ∧
    Ev.call (if isAbs e.Link = false then goJoin frm (goJoinList pre) else []) e.Link
        (level + 1) ∈
      (walkLoop fs ctx fn (fuel2 + 1) tick frm volume pre (name :: rest) level).2.1 := by
  have heq : walkLoop fs ctx fn (fuel2 + 1) tick frm volume pre (name :: rest) level =
      (let rel := if isAbs e.Link = false then goJoin frm (goJoinList pre) else []
       let nested := walkRec fs ctx fn fuel2 t1 rel e.Link (level + 1)
       match nested.2.2 with
       | some er =>
           (nested.1,
            evs ++ [Ev.visit e] ++ [Ev.call rel e.Link (level + 1)] ++ nested.2.1,
            some er)
       | none =>
           (let cont := walkLoop fs ctx fn (fuel2 + 1) nested.1 frm volume (pre ++ [name])
              rest level
            (cont.1,
             evs ++ [Ev.visit e] ++ [Ev.call rel e.Link (level + 1)] ++ nested.2.1 ++
               cont.2.1,
             cont.2.2))) := by
    simp only [walkLoop, hme, hfn]
    rw [if_pos (And.intro hfollow hlink)]
    rw [walkRec_inline fs ctx fn fuel2 t1
      (if isAbs e.Link = false then goJoin frm (goJoinList pre) else []) e.Link (level + 1)]
  refine ⟨heq, ?_⟩
  rw [heq]
  rcases hn : (walkRec fs ctx fn fuel2 t1
      (if isAbs e.Link = false then goJoin frm (goJoinList pre) else []) e.Link
      (level + 1)).2.2 with - | er <;>
    simp [hn]

/-- Witness for C2: on a filesystem where `/tmp/a/link` points to
`../b/target`, the walker recurses with base `/tmp/a` (the directory
containing the link), and the end-to-end walk of `/tmp/a/link` reaches
`/tmp/b/target`. -/
theorem C2_witness :
    (makeEntryM fsTmp ctxNever 4 []
        (goJoinList ([['/'], "tmp".toList, "a".toList] ++ ["link".toList])) []
        "link".toList 0).1.Link = "../b/target".toList ∧
    goJoin [] (goJoinList [['/'], "tmp".toList, "a".toList]) = "/tmp/a".toList ∧
    Ev.call "/tmp/a".toList "../b/target".toList 1 ∈
      (walkLoop fsTmp ctxNever fnFollowAll 4 4 [] [] [['/'], "tmp".toList, "a".toList]
        ["link".toList] 0).2.1 ∧
    Ev.access "/tmp/b/target".toList ∈
      (walk fsTmp ctxNever fnFollowAll 9 "/tmp/a/link".toList).2.1 := by
  have hlink : (makeEntryM fsTmp ctxNever 4 []
      (goJoinList ([['/'], "tmp".toList, "a".toList] ++ ["link".toList])) []
      "link".toList 0).1.Link = "../b/target".toList := by
    simp +decide [makeEntryM, fsTmp, ctxNever, goJoin, goJoinList, clean, cleanLoop,
      dotIfEmpty, isSep, isAbs, stLink, stDir, stFile, splitSep, joinSegs, sentinel,
      mkResolved, getParentDevice, getOwnerInfo, goAbs, dirPath]
  have hrel : goJoin [] (goJoinList [['/'], "tmp".toList, "a".toList]) = "/tmp/a".toList := by
    simp +decide [goJoin, goJoinList, clean, cleanLoop, dotIfEmpty, isSep, joinSegs]
  have h := (C2_follow_resolves_link fsTmp ctxNever fnFollowAll 3 4 [] [] "link".toList
    [['/'], "tmp".toList, "a".toList] [] 0
    (makeEntryM fsTmp ctxNever 4 []
      (goJoinList ([['/'], "tmp".toList, "a".toList] ++ ["link".toList])) []
      "link".toList 0).1
    (makeEntryM fsTmp ctxNever 4 []
      (goJoinList ([['/'], "tmp".toList, "a".toList] ++ ["link".toList])) []
      "link".toList 0).2.1
    (makeEntryM fsTmp ctxNever 4 []
      (goJoinList ([['/'], "tmp".toList, "a".toList] ++ ["link".toList])) []
      "link".toList 0).2.2
    rfl rfl rfl (by rw [hlink]; decide)).2
  rw [hlink] at h
  rw [if_pos (by decide : isAbs "../b/target".toList = false)] at h
  rw [hrel] at h
  refine ⟨hlink, hrel, h, ?_⟩
  simp +decide [walk, walkRec, walkLoop, makeEntryM, fsTmp, ctxNever, fnFollowAll,
    splitPath, splitSep, goJoin, goJoinList, clean, cleanLoop, dotIfEmpty, isSep, isAbs,
    stLink, stDir, stFile, joinSegs, sentinel, mkResolved, getParentDevice, getOwnerInfo,
    goAbs, dirPath]

/-- **C10.** `walkRecursive` decides whether to recurse through a link from
`follow && rec.Link != ""` alone, without consulting the record's error: on
a filesystem where the link target reads fine but the owner lookup fails,
the record carries a non-nil error and a non-empty link, and the walker
still recurses on the target (the call event is in the trace).  This is
consistent with the code and inconsistent with C4's all-fields-zero claim. -/
theorem C10_follow_ignores_error :
    (makeEntryM fsLink ctxNever 1 [] "x".toList [] "x".toList 0).1.Err =
      some (WErr.userE 5) ∧
    (makeEntryM fsLink ctxNever 1 [] "x".toList [] "x".toList 0).1.Link = "t".toList ∧
    Ev.call [] "t".toList 1 ∈ (walk fsLink ctxNever fnFollowAll 3 "x".toList).2.1 := by
  refine ⟨?_, ?_, ?_⟩ <;>
    simp +decide [walk, walkRec, walkLoop, makeEntryM, fsLink, ctxNever, fnFollowAll,
      splitPath, splitSep, goJoin, goJoinList, clean, cleanLoop, dotIfEmpty, isSep, isAbs,
      stX, joinSegs, sentinel, mkResolved, getParentDevice, getOwnerInfo, goAbs, dirPath]

end Lsi
